import Mathlib

/-!
Verification of the analysis engine of a multi-agent codebase analyzer
(repo indexer / feature grouper / quality analyzer / impact analyzer /
duplication analyzer), shallowly embedded in Lean from the TypeScript
source.  Each agent's data-shaping logic is translated into executable
definitions; console output, file I/O and git access are external inputs
and appear here as explicit parameters.
-/

namespace Inspector

/-! ### Duplication Analyzer (agents/duplication-analyzer.ts)

The hash-index construction reads file contents and hashes chunks with
sha256; for the matching phase verified here the index is an explicit
input: a list of `(hash, occurrences)` groups in scan order, exactly the
shape of the `hashIndex` map when the matching loop starts. -/

/-- One recorded chunk occurrence: `{file, lineStart, snippet}`. -/
structure DupEntry where
  file : String
  lineStart : Nat
  snippet : String
deriving DecidableEq, Repr

/-- `DuplicationMatch` record pushed by the matching loop. -/
structure DuplicationMatch where
  fileA : String
  fileB : String
  lineStartA : Nat
  lineStartB : Nat
  lineCount : Nat
  hash : String
  snippet : String
deriving DecidableEq, Repr

def MIN_CHUNK_SIZE : Nat := 6

def MAX_DUPLICATES : Nat := 200

/-- One step of grouping entries by file (JS `Map` keeps first-insertion
key order; values are pushed in scan order). -/
def addToGroups (gs : List (String × List DupEntry)) (e : DupEntry) :
    List (String × List DupEntry) :=
  if gs.any (fun g => g.1 = e.file) then
    gs.map (fun g => if g.1 = e.file then (g.1, g.2 ++ [e]) else g)
  else gs ++ [(e.file, [e])]

/-- `fileGroups`: group occurrences of one hash by file. -/
def fileGroups (entries : List DupEntry) : List (String × List DupEntry) :=
  entries.foldl addToGroups []

/-- All ordered pairs `(l[i], l[j])` with `i < j` — the double index loop
over `fileList`. -/
def pairsOf {α : Type} : List α → List (α × α)
  | [] => []
  | x :: xs => xs.map (fun y => (x, y)) ++ pairsOf xs

/-- Matches produced for a single hash group: skipped when fewer than two
occurrences or fewer than two distinct files; otherwise one match per
file pair, built from the first occurrence in each file. -/
def hashMatchList (hash : String) (entries : List DupEntry) : List DuplicationMatch :=
  if entries.length < 2 then []
  else
    let gs := fileGroups entries
    if gs.length < 2 then []
    else
      (pairsOf gs).map (fun p =>
        let ea := p.1.2.headD ⟨p.1.1, 0, ""⟩
        let eb := p.2.2.headD ⟨p.2.1, 0, ""⟩
        { fileA := ea.file, fileB := eb.file,
          lineStartA := ea.lineStart, lineStartB := eb.lineStart,
          lineCount := MIN_CHUNK_SIZE, hash := hash, snippet := ea.snippet })

/-- Append candidate matches while the global cap is not reached; once
`matches.length` reaches `MAX_DUPLICATES` every `break` fires and nothing
further is pushed. -/
def pushCapped (acc : List DuplicationMatch) (ms : List DuplicationMatch) :
    List DuplicationMatch :=
  ms.foldl (fun a m => if a.length < MAX_DUPLICATES then a ++ [m] else a) acc

/-- The full matching loop over the hash index. -/
def collectMatches (idx : List (String × List DupEntry)) : List DuplicationMatch :=
  idx.foldl (fun acc h => pushCapped acc (hashMatchList h.1 h.2)) []

/-- Lexicographic order on character lists (JS default string compare). -/
def charLe : List Char → List Char → Bool
  | [], _ => true
  | _ :: _, [] => false
  | a :: as, b :: bs => if a < b then true else if b < a then false else charLe as bs

/-- Lexicographic string order used by `[fileA, fileB].sort()`. -/
def strLeB (a b : String) : Bool := charLe a.data b.data

/-- Unordered file-pair key: `[fileA, fileB].sort().join('|')`, modelled
as the lexicographically ordered pair. -/
def pairKey (m : DuplicationMatch) : String × String :=
  if strLeB m.fileA m.fileB then (m.fileA, m.fileB) else (m.fileB, m.fileA)

theorem charLe_total : ∀ a b : List Char, charLe a b = true ∨ charLe b a = true := by
  intro a
  induction a with
  | nil => intro b; exact Or.inl rfl
  | cons x xs ih =>
    intro b
    cases b with
    | nil => exact Or.inr rfl
    | cons y ys =>
      by_cases h1 : x < y
      · left; simp [charLe, h1]
      · by_cases h2 : y < x
        · right; simp [charLe, h2, h1]
        · have := ih ys
          simpa [charLe, h1, h2] using this

theorem charLe_antisymm : ∀ a b : List Char,
    charLe a b = true → charLe b a = true → a = b := by
  intro a
  induction a with
  | nil =>
    intro b _ hba
    cases b with
    | nil => rfl
    | cons y ys => simp [charLe] at hba
  | cons x xs ih =>
    intro b hab hba
    cases b with
    | nil => simp [charLe] at hab
    | cons y ys =>
      by_cases h1 : x < y
      · simp [charLe, h1, lt_asymm h1] at hba
      · by_cases h2 : y < x
        · simp [charLe, h1, h2] at hab
        · have hxy : x = y := Char.le_antisymm (Char.not_lt.mp h2) (Char.not_lt.mp h1)
          simp only [charLe, if_neg h1, if_neg h2] at hab
          simp only [charLe, if_neg h2, if_neg h1] at hba
          rw [hxy, ih ys hab hba]

theorem strLeB_total (a b : String) : strLeB a b = true ∨ strLeB b a = true :=
  charLe_total a.data b.data

theorem strLeB_antisymm {a b : String} (h1 : strLeB a b = true)
    (h2 : strLeB b a = true) : a = b := by
  have h := charLe_antisymm a.data b.data h1 h2
  cases a; cases b
  exact congrArg String.mk h

/-- Two matches cover the same unordered pair of files. -/
def samePair (m1 m2 : DuplicationMatch) : Prop :=
  (m1.fileA = m2.fileA ∧ m1.fileB = m2.fileB) ∨
  (m1.fileA = m2.fileB ∧ m1.fileB = m2.fileA)

theorem pairKey_eq_of_samePair {m1 m2 : DuplicationMatch} (h : samePair m1 m2) :
    pairKey m1 = pairKey m2 := by
  rcases h with ⟨h1, h2⟩ | ⟨h1, h2⟩
  · unfold pairKey; rw [h1, h2]
  · unfold pairKey
    rw [h1, h2]
    by_cases hc : strLeB m2.fileB m2.fileA
    · rw [if_pos hc]
      by_cases hc' : strLeB m2.fileA m2.fileB
      · rw [if_pos hc', strLeB_antisymm hc hc']
      · rw [if_neg hc']
    · rw [if_neg hc]
      have := (strLeB_total m2.fileB m2.fileA).resolve_left (by simpa using hc)
      rw [if_pos this]

/-- Final dedup by unordered file pair (`seen` set filter). -/
def dedupPairs (ms : List DuplicationMatch) : List DuplicationMatch :=
  (ms.foldl
    (fun (st : List (String × String) × List DuplicationMatch) m =>
      if pairKey m ∈ st.1 then st else (pairKey m :: st.1, st.2 ++ [m]))
    ([], [])).2

/-- `store.duplications` as a function of the hash index. -/
def duplicationResults (idx : List (String × List DupEntry)) : List DuplicationMatch :=
  dedupPairs (collectMatches idx)

/-! #### Lemmas about the duplication embedding -/

theorem addToGroups_inv (gs : List (String × List DupEntry)) (e : DupEntry)
    (h : ∀ g ∈ gs, g.2 ≠ [] ∧ ∀ x ∈ g.2, x.file = g.1) :
    ∀ g ∈ addToGroups gs e, g.2 ≠ [] ∧ ∀ x ∈ g.2, x.file = g.1 := by
  intro g hg
  unfold addToGroups at hg
  by_cases hc : gs.any (fun g => g.1 = e.file)
  · rw [if_pos hc] at hg
    rw [List.mem_map] at hg
    obtain ⟨g₀, hg₀, rfl⟩ := hg
    by_cases he : g₀.1 = e.file
    · rw [if_pos he]
      refine ⟨by simp, ?_⟩
      intro x hx
      rcases List.mem_append.mp hx with hx | hx
      · exact (h g₀ hg₀).2 x hx
      · simp only [List.mem_singleton] at hx
        subst hx; exact he.symm
    · rw [if_neg he]
      exact h g₀ hg₀
  · rw [if_neg hc] at hg
    rcases List.mem_append.mp hg with hg | hg
    · exact h g hg
    · simp only [List.mem_singleton] at hg
      subst hg
      exact ⟨by simp, by intro x hx; simp only [List.mem_singleton] at hx; subst hx; rfl⟩

theorem foldl_addToGroups_inv (entries : List DupEntry)
    (gs : List (String × List DupEntry))
    (h : ∀ g ∈ gs, g.2 ≠ [] ∧ ∀ x ∈ g.2, x.file = g.1) :
    ∀ g ∈ entries.foldl addToGroups gs, g.2 ≠ [] ∧ ∀ x ∈ g.2, x.file = g.1 := by
  induction entries generalizing gs with
  | nil => exact h
  | cons e es ih => exact ih _ (addToGroups_inv gs e h)

theorem fileGroups_inv (entries : List DupEntry) :
    ∀ g ∈ fileGroups entries, g.2 ≠ [] ∧ ∀ x ∈ g.2, x.file = g.1 :=
  foldl_addToGroups_inv entries [] (by simp)

theorem addToGroups_keys (gs : List (String × List DupEntry)) (e : DupEntry)
    (h : gs.Pairwise (fun a b => a.1 ≠ b.1)) :
    (addToGroups gs e).Pairwise (fun a b => a.1 ≠ b.1) := by
  unfold addToGroups
  by_cases hc : gs.any (fun g => g.1 = e.file)
  · rw [if_pos hc]
    refine List.Pairwise.map _ ?_ h
    intro a b hab
    have pa : (if a.1 = e.file then (a.1, a.2 ++ [e]) else a).1 = a.1 := by
      split_ifs <;> rfl
    have pb : (if b.1 = e.file then (b.1, b.2 ++ [e]) else b).1 = b.1 := by
      split_ifs <;> rfl
    rw [pa, pb]
    exact hab
  · rw [if_neg hc]
    rw [List.pairwise_append]
    refine ⟨h, by simp, ?_⟩
    intro a ha b hb
    simp only [List.mem_singleton] at hb
    subst hb
    simp only [List.any_eq_true, decide_eq_true_eq] at hc
    push_neg at hc
    exact hc a ha

theorem foldl_addToGroups_keys (entries : List DupEntry)
    (gs : List (String × List DupEntry))
    (h : gs.Pairwise (fun a b => a.1 ≠ b.1)) :
    (entries.foldl addToGroups gs).Pairwise (fun a b => a.1 ≠ b.1) := by
  induction entries generalizing gs with
  | nil => exact h
  | cons e es ih => exact ih _ (addToGroups_keys gs e h)

theorem fileGroups_keys (entries : List DupEntry) :
    (fileGroups entries).Pairwise (fun a b => a.1 ≠ b.1) :=
  foldl_addToGroups_keys entries [] (by simp)

theorem pairsOf_rel {α : Type} {R : α → α → Prop} :
    ∀ {l : List α}, l.Pairwise R → ∀ p ∈ pairsOf l, R p.1 p.2 := by
  intro l
  induction l with
  | nil => intro _ p hp; simp [pairsOf] at hp
  | cons x xs ih =>
    intro h p hp
    rw [List.pairwise_cons] at h
    simp only [pairsOf, List.mem_append, List.mem_map] at hp
    rcases hp with ⟨y, hy, rfl⟩ | hp
    · exact h.1 y hy
    · exact ih h.2 p hp

theorem pairsOf_mem {α : Type} :
    ∀ {l : List α} {p : α × α}, p ∈ pairsOf l → p.1 ∈ l ∧ p.2 ∈ l := by
  intro l
  induction l with
  | nil => intro p hp; simp [pairsOf] at hp
  | cons x xs ih =>
    intro p hp
    simp only [pairsOf, List.mem_append, List.mem_map] at hp
    rcases hp with ⟨y, hy, rfl⟩ | hp
    · exact ⟨by simp, by simp [hy]⟩
    · obtain ⟨h1, h2⟩ := ih hp
      exact ⟨by simp [h1], by simp [h2]⟩

theorem head?_getD_mem {α : Type} {l : List α} (h : l ≠ []) (d : α) :
    l.head?.getD d ∈ l := by
  cases l with
  | nil => exact absurd rfl h
  | cons x xs => simp

theorem mem_hashMatchList {hash : String} {entries : List DupEntry}
    {m : DuplicationMatch} (h : m ∈ hashMatchList hash entries) :
    m.fileA ≠ m.fileB ∧ m.lineCount = MIN_CHUNK_SIZE := by
  unfold hashMatchList at h
  by_cases h2 : entries.length < 2
  · simp [h2] at h
  · rw [if_neg h2] at h
    by_cases hg : (fileGroups entries).length < 2
    · simp [hg] at h
    · rw [if_neg hg, List.mem_map] at h
      obtain ⟨p, hp, rfl⟩ := h
      have hne : p.1.1 ≠ p.2.1 := pairsOf_rel (fileGroups_keys entries) p hp
      obtain ⟨hp1, hp2⟩ := pairsOf_mem hp
      have i1 := fileGroups_inv entries p.1 hp1
      have i2 := fileGroups_inv entries p.2 hp2
      have e1 : (p.1.2.head?.getD ⟨p.1.1, 0, ""⟩).file = p.1.1 :=
        i1.2 _ (head?_getD_mem i1.1 _)
      have e2 : (p.2.2.head?.getD ⟨p.2.1, 0, ""⟩).file = p.2.1 :=
        i2.2 _ (head?_getD_mem i2.1 _)
      refine ⟨?_, rfl⟩
      simpa [e1, e2] using hne

theorem mem_pushCapped {ms : List DuplicationMatch} :
    ∀ {acc : List DuplicationMatch} {m : DuplicationMatch},
      m ∈ pushCapped acc ms → m ∈ acc ∨ m ∈ ms := by
  unfold pushCapped
  induction ms with
  | nil => intro acc m h; exact Or.inl h
  | cons x xs ih =>
    intro acc m h
    rw [List.foldl_cons] at h
    by_cases hc : acc.length < MAX_DUPLICATES
    · rw [if_pos hc] at h
      rcases ih h with h' | h'
      · rcases List.mem_append.mp h' with h'' | h''
        · exact Or.inl h''
        · simp only [List.mem_singleton] at h''
          exact Or.inr (by simp [h''])
      · exact Or.inr (by simp [h'])
    · rw [if_neg hc] at h
      rcases ih h with h' | h'
      · exact Or.inl h'
      · exact Or.inr (by simp [h'])

theorem mem_collectMatches {idx : List (String × List DupEntry)}
    {m : DuplicationMatch} (h : m ∈ collectMatches idx) :
    ∃ p ∈ idx, m ∈ hashMatchList p.1 p.2 := by
  unfold collectMatches at h
  suffices H : ∀ acc, m ∈ idx.foldl (fun acc h => pushCapped acc (hashMatchList h.1 h.2)) acc →
      m ∈ acc ∨ ∃ p ∈ idx, m ∈ hashMatchList p.1 p.2 by
    rcases H [] h with h' | h'
    · simp at h'
    · exact h'
  clear h
  induction idx with
  | nil => intro acc hm; exact Or.inl hm
  | cons x xs ih =>
    intro acc hm
    rw [List.foldl_cons] at hm
    rcases ih _ hm with h' | h'
    · rcases mem_pushCapped h' with h'' | h''
      · exact Or.inl h''
      · exact Or.inr ⟨x, by simp, h''⟩
    · obtain ⟨p, hp, hmp⟩ := h'
      exact Or.inr ⟨p, by simp [hp], hmp⟩

/-- The `seen`-set fold used for dedup, named so the invariant can be
stated by induction. -/
def dedupStep (st : List (String × String) × List DuplicationMatch)
    (m : DuplicationMatch) : List (String × String) × List DuplicationMatch :=
  if pairKey m ∈ st.1 then st else (pairKey m :: st.1, st.2 ++ [m])

theorem dedupPairs_eq (ms : List DuplicationMatch) :
    dedupPairs ms = (ms.foldl dedupStep ([], [])).2 := rfl

theorem dedupPairs_aux (ms : List DuplicationMatch) :
    ∀ (seen : List (String × String)) (out : List DuplicationMatch),
      (∀ m ∈ out, pairKey m ∈ seen) →
      out.Pairwise (fun a b => pairKey a ≠ pairKey b) →
      ((ms.foldl dedupStep (seen, out)).2).Pairwise (fun a b => pairKey a ≠ pairKey b) ∧
      ∀ m ∈ (ms.foldl dedupStep (seen, out)).2, m ∈ ms ∨ m ∈ out := by
  induction ms with
  | nil =>
    intro seen out _ h2
    exact ⟨h2, fun m hm => Or.inr hm⟩
  | cons x xs ih =>
    intro seen out h1 h2
    rw [List.foldl_cons]
    by_cases hc : pairKey x ∈ seen
    · rw [show dedupStep (seen, out) x = (seen, out) from if_pos hc]
      obtain ⟨g1, g2⟩ := ih seen out h1 h2
      refine ⟨g1, ?_⟩
      intro m hm
      rcases g2 m hm with h | h
      · exact Or.inl (by simp [h])
      · exact Or.inr h
    · rw [show dedupStep (seen, out) x = (pairKey x :: seen, out ++ [x]) from if_neg hc]
      have h1' : ∀ m ∈ out ++ [x], pairKey m ∈ pairKey x :: seen := by
        intro m hm
        rcases List.mem_append.mp hm with h | h
        · exact List.mem_cons_of_mem _ (h1 m h)
        · simp only [List.mem_singleton] at h
          subst h; exact List.mem_cons_self _ _
      have h2' : (out ++ [x]).Pairwise (fun a b => pairKey a ≠ pairKey b) := by
        rw [List.pairwise_append]
        refine ⟨h2, by simp, ?_⟩
        intro a ha b hb
        simp only [List.mem_singleton] at hb
        subst hb
        intro hk
        exact hc (hk ▸ h1 a ha)
      obtain ⟨g1, g2⟩ := ih _ _ h1' h2'
      refine ⟨g1, ?_⟩
      intro m hm
      rcases g2 m hm with h | h
      · exact Or.inl (by simp [h])
      · rcases List.mem_append.mp h with h' | h'
        · exact Or.inr h'
        · simp only [List.mem_singleton] at h'
          exact Or.inl (by simp [h'])

theorem dedupPairs_spec (ms : List DuplicationMatch) :
    (dedupPairs ms).Pairwise (fun a b => pairKey a ≠ pairKey b) ∧
      ∀ m ∈ dedupPairs ms, m ∈ ms := by
  rw [dedupPairs_eq]
  obtain ⟨h1, h2⟩ := dedupPairs_aux ms [] [] (by simp) (by simp)
  refine ⟨h1, ?_⟩
  intro m hm
  rcases h2 m hm with h | h
  · exact h
  · simp at h

theorem addToGroups_single {f : String} (gs : List (String × List DupEntry))
    (e : DupEntry) (he : e.file = f)
    (h : gs.length ≤ 1 ∧ ∀ g ∈ gs, g.1 = f) :
    (addToGroups gs e).length ≤ 1 ∧ ∀ g ∈ addToGroups gs e, g.1 = f := by
  unfold addToGroups
  by_cases hc : gs.any (fun g => g.1 = e.file)
  · rw [if_pos hc]
    refine ⟨by simpa using h.1, ?_⟩
    intro g hg
    rw [List.mem_map] at hg
    obtain ⟨g₀, hg₀, rfl⟩ := hg
    have : (if g₀.1 = e.file then (g₀.1, g₀.2 ++ [e]) else g₀).1 = g₀.1 := by
      split_ifs <;> rfl
    rw [this]
    exact h.2 g₀ hg₀
  · rw [if_neg hc]
    cases gs with
    | nil =>
      refine ⟨by simp, ?_⟩
      intro g hg
      simp only [List.nil_append, List.mem_singleton] at hg
      subst hg; exact he
    | cons g₀ gs' =>
      exfalso
      apply hc
      simp only [List.any_cons, Bool.or_eq_true, decide_eq_true_eq]
      left
      rw [h.2 g₀ (by simp), he]

theorem fileGroups_single {f : String} (entries : List DupEntry)
    (h : ∀ e ∈ entries, e.file = f) : (fileGroups entries).length ≤ 1 := by
  unfold fileGroups
  suffices H : ∀ gs : List (String × List DupEntry),
      gs.length ≤ 1 → (∀ g ∈ gs, g.1 = f) →
      (entries.foldl addToGroups gs).length ≤ 1 ∧
        ∀ g ∈ entries.foldl addToGroups gs, g.1 = f by
    exact (H [] (by simp) (by simp)).1
  induction entries with
  | nil => intro gs h1 h2; exact ⟨h1, h2⟩
  | cons e es ih =>
    intro gs h1 h2
    rw [List.foldl_cons]
    have he : e.file = f := h e (by simp)
    have := addToGroups_single gs e he ⟨h1, h2⟩
    exact ih (fun x hx => h x (by simp [hx])) _ this.1 this.2

theorem hashMatchList_single {f : String} (hash : String) (entries : List DupEntry)
    (h : ∀ e ∈ entries, e.file = f) : hashMatchList hash entries = [] := by
  unfold hashMatchList
  by_cases h2 : entries.length < 2
  · rw [if_pos h2]
  · rw [if_neg h2]
    have hg : (fileGroups entries).length < 2 :=
      Nat.lt_of_le_of_lt (fileGroups_single entries h) (by omega)
    rw [if_pos hg]

theorem collectMatches_nil {idx : List (String × List DupEntry)}
    (h : ∀ p ∈ idx, hashMatchList p.1 p.2 = []) : collectMatches idx = [] := by
  unfold collectMatches
  suffices H : ∀ acc, idx.foldl (fun acc h => pushCapped acc (hashMatchList h.1 h.2)) acc = acc by
    exact H []
  induction idx with
  | nil => intro acc; rfl
  | cons x xs ih =>
    intro acc
    rw [List.foldl_cons, h x (by simp)]
    exact ih (fun p hp => h p (by simp [hp])) acc

/-- C6: the Near-Duplicate Detector's final results contain at most one
match per unordered pair of distinct files (for every hash index, hence
for every scan order), every reported match pairs two different files,
and a hash whose occurrences all lie in a single file contributes no
match — in particular three occurrences inside one file and none
elsewhere produce zero matches. -/
theorem duplication_one_match_per_pair (idx : List (String × List DupEntry)) :
    (duplicationResults idx).Pairwise (fun m1 m2 => ¬ samePair m1 m2) ∧
    (∀ m ∈ duplicationResults idx, m.fileA ≠ m.fileB) ∧
    ((∀ p ∈ idx, ∃ f, ∀ e ∈ p.2, e.file = f) → duplicationResults idx = []) := by
  obtain ⟨hpw, hsub⟩ := dedupPairs_spec (collectMatches idx)
  refine ⟨?_, ?_, ?_⟩
  · exact hpw.imp (fun hk hs => hk (pairKey_eq_of_samePair hs))
  · intro m hm
    obtain ⟨p, _, hmp⟩ := mem_collectMatches (hsub m hm)
    exact (mem_hashMatchList hmp).1
  · intro hone
    have : collectMatches idx = [] := by
      apply collectMatches_nil
      intro p hp
      obtain ⟨f, hf⟩ := hone p hp
      exact hashMatchList_single p.1 p.2 hf
    unfold duplicationResults
    rw [this]
    rfl

/-- Witness for C6: a single hash with three occurrences in file `A`
(lines 1, 10, 20) and no occurrence elsewhere yields zero matches. -/
theorem duplication_one_match_per_pair_witness :
    duplicationResults [("h", [⟨"A", 1, "s"⟩, ⟨"A", 10, "s"⟩, ⟨"A", 20, "s"⟩])] = [] :=
  (duplication_one_match_per_pair _).2.2 (by
    intro p hp
    simp only [List.mem_singleton] at hp
    subst hp
    exact ⟨"A", by decide⟩)

/-- C10: every emitted DuplicateMatch carries `lineCount = 6`
(`MIN_CHUNK_SIZE`), whatever window size produced the shared hash. -/
theorem duplication_lineCount_always_six (idx : List (String × List DupEntry)) :
    ∀ m ∈ duplicationResults idx, m.lineCount = 6 := by
  intro m hm
  have h1 := (dedupPairs_spec (collectMatches idx)).2 m hm
  obtain ⟨p, _, hmp⟩ := mem_collectMatches h1
  exact (mem_hashMatchList hmp).2

/-- Concrete match used by the C10 witness. -/
def dupWitnessMatch : DuplicationMatch := ⟨"A", "B", 1, 5, 6, "h", "x"⟩

/-- Concrete two-file hash index used by the C10 witness. -/
def dupWitnessIdx : List (String × List DupEntry) :=
  [("h", [⟨"A", 1, "x"⟩, ⟨"B", 5, "y"⟩])]

/-- Witness for C10: a cross-file duplicate produces a match, and its
`lineCount` is 6. -/
theorem duplication_lineCount_always_six_witness :
    dupWitnessMatch ∈ duplicationResults dupWitnessIdx ∧
      dupWitnessMatch.lineCount = 6 :=
  ⟨by decide, duplication_lineCount_always_six dupWitnessIdx dupWitnessMatch (by decide)⟩

/-! ### String utilities (utils/fs-utils.ts and JS string methods)

JS string methods are modelled at the character-list level so every
definition reduces in the kernel. -/

/-- `pat` is a prefix of `l` (character-wise). -/
def isPrefixOfB : List Char → List Char → Bool
  | [], _ => true
  | _ :: _, [] => false
  | a :: as, b :: bs => a = b && isPrefixOfB as bs

/-- `pat` occurs somewhere inside `l` — JS `String.prototype.includes`. -/
def infixOfB (pat : List Char) : List Char → Bool
  | [] => isPrefixOfB pat []
  | l@(_ :: t) => isPrefixOfB pat l || infixOfB pat t

/-- JS `s.includes(pat)`. -/
def strContains (s pat : String) : Bool := infixOfB pat.data s.data

/-- JS `s.startsWith(pat)`. -/
def strStarts (s pat : String) : Bool := isPrefixOfB pat.data s.data

/-- JS `s.endsWith(pat)`. -/
def strEnds (s pat : String) : Bool := isPrefixOfB pat.data.reverse s.data.reverse

/-- Replace the first occurrence of `pat` (non-empty) inside a character
list. -/
def replFirstAux (pat rep : List Char) : List Char → List Char
  | [] => []
  | x :: xs =>
    if isPrefixOfB pat (x :: xs) then rep ++ (x :: xs).drop pat.length
    else x :: replFirstAux pat rep xs

/-- JS `s.replace(pat, rep)` with a plain-string pattern: replaces the
first occurrence only (an empty pattern inserts at the start). -/
def replaceFirst (s pat rep : String) : String :=
  if pat.data.isEmpty then ⟨rep.data ++ s.data⟩
  else ⟨replFirstAux pat.data rep.data s.data⟩

/-- Split a character list at a separator (JS `split` with a one-char
separator: empty fields preserved, always at least one field). -/
def splitOnChar (c : Char) : List Char → List (List Char)
  | [] => [[]]
  | x :: xs =>
    let r := splitOnChar c xs
    if x = c then [] :: r
    else
      match r with
      | [] => [[x]]
      | y :: ys => (x :: y) :: ys

/-- JS `s.split(c)` for a single-character separator. -/
def splitStr (c : Char) (s : String) : List String :=
  (splitOnChar c s.data).map String.mk

/-- `node:path` `basename` for the slash-separated relative paths the
analyzer works with (no trailing slashes in its inputs). -/
def baseName (p : String) : String := (splitStr '/' p).getLastD p

/-- `isTestFile` from utils/fs-utils.ts. -/
def isTestFile (filePath : String) : Bool :=
  let name := baseName filePath
  strContains name ".spec." || strContains name ".test." ||
  strContains name "__test" ||
  strContains filePath "/test/" || strContains filePath "/tests/" ||
  strContains filePath "/__tests__/" ||
  strContains filePath "/cypress/" || strContains filePath "/e2e/"

/-! ### Impact Analyzer (agents/impact-analyzer.ts)

The run is a function of the store fields it reads: the file inventory
(with language tags), the resolved import graph, the feature list, the
git churn map and the per-file cyclomatic complexity from the metrics
map. -/

/-- Language tag of an indexed file (`getLanguage`). -/
inductive Lang
  | typescript | javascript | vue | css | json | other
deriving DecidableEq, Repr

/-- Severity tier of an impact node. -/
inductive Severity
  | critical | high | medium | low
deriving DecidableEq, Repr

/-- A resolved import edge (named specifiers and flags are irrelevant to
the verified components and omitted). -/
structure ImportEdge where
  source : String
  target : String
deriving DecidableEq, Repr

/-- A feature as the Impact Analyzer consumes it: id and member files. -/
structure FeatureRec where
  id : String
  files : List String
deriving DecidableEq, Repr

/-- `ImpactNode` record. -/
structure ImpactNode where
  file : String
  fanIn : Nat
  featureCount : Nat
  gitChurn : Nat
  hasTests : Bool
  impactScore : ℤ
  severity : Severity
deriving DecidableEq, Repr

/-- The store fields read by the Impact Analyzer. -/
structure ImpactInput where
  files : List (String × Lang)
  importGraph : List ImportEdge
  features : List FeatureRec
  gitChurns : String → Option Nat
  fileMetricsCx : String → Option Nat

/-- The `fanInMap` entry for one file: the `Set` of sources of edges into
it, in first-insertion order. -/
def fanInSources (edges : List ImportEdge) (target : String) : List String :=
  edges.foldl
    (fun acc e =>
      if e.target = target then (if e.source ∈ acc then acc else acc ++ [e.source])
      else acc) []

/-- `fanInMap.get(rel)?.size || 0`. -/
def impactFanIn (edges : List ImportEdge) (rel : String) : Nat :=
  (fanInSources edges rel).length

/-- The `fileToFeatures` entry for one file: the `Set` of ids of features
whose member list contains it. -/
def fileFeatureIds (features : List FeatureRec) (rel : String) : List String :=
  features.foldl
    (fun acc ft =>
      if rel ∈ ft.files then (if ft.id ∈ acc then acc else acc ++ [ft.id])
      else acc) []

/-- `fileToFeatures.get(rel)?.size || 0`. -/
def featureCountOf (features : List FeatureRec) (rel : String) : Nat :=
  (fileFeatureIds features rel).length

/-- Test file → source file heuristic: strip the first `.spec.` and the
first `.test.` marker. -/
def sourceFileOf (tf : String) : String :=
  replaceFirst (replaceFirst tf ".spec." ".") ".test." "."

/-- The `filesWithTests` set: sources derived from test files that exist
in the inventory. -/
def filesWithTests (files : List (String × Lang)) : List String :=
  (((files.map Prod.fst).filter isTestFile).map sourceFileOf).filter
    (fun s => (files.map Prod.fst).contains s)

/-- `hasTests = filesWithTests.has(rel)`. -/
def hasTestsFor (files : List (String × Lang)) (rel : String) : Bool :=
  (filesWithTests files).contains rel

/-- JS `Math.round` on the exact rational value. -/
def jsRound (q : ℚ) : ℤ := ⌊q + 1 / 2⌋

/-- The impact score formula before rounding. -/
def impactScoreQ (fanIn featureCount gitChurn : Nat) (hasTests : Bool)
    (complexity : Nat) : ℚ :=
  min ((fanIn : ℚ) / 30) 1 * 35 + min ((featureCount : ℚ) / 5) 1 * 25 +
    min ((gitChurn : ℚ) / 100) 1 * 20 + (if hasTests then 0 else 10) +
    min ((complexity : ℚ) / 50) 1 * 10

/-- Rounded impact score of a file. -/
def impactScoreOf (st : ImpactInput) (rel : String) : ℤ :=
  jsRound (impactScoreQ (impactFanIn st.importGraph rel)
    (featureCountOf st.features rel) ((st.gitChurns rel).getD 0)
    (hasTestsFor st.files rel) ((st.fileMetricsCx rel).getD 0))

/-- `impactScore >= 70 ? critical : >= 50 ? high : >= 30 ? medium : low`. -/
def severityFor (score : ℤ) : Severity :=
  if 70 ≤ score then .critical
  else if 50 ≤ score then .high
  else if 30 ≤ score then .medium
  else .low

/-- The node pushed for an eligible, sufficiently scored file. -/
def impactNodeFor (st : ImpactInput) (rel : String) : ImpactNode :=
  { file := rel
    fanIn := impactFanIn st.importGraph rel
    featureCount := featureCountOf st.features rel
    gitChurn := (st.gitChurns rel).getD 0
    hasTests := hasTestsFor st.files rel
    impactScore := impactScoreOf st rel
    severity := severityFor (impactScoreOf st rel) }

/-- Loop body over `store.files`: skip test files, json/css assets, and
files scoring below 15; otherwise push the node. -/
def impactStep (st : ImpactInput) (acc : List ImpactNode) (p : String × Lang) :
    List ImpactNode :=
  if isTestFile p.1 then acc
  else if p.2 = Lang.json ∨ p.2 = Lang.css then acc
  else if impactScoreOf st p.1 < 15 then acc
  else acc ++ [impactNodeFor st p.1]

/-- `store.impactNodes` after the scoring loop and the descending sort by
`impactScore` (JS stable comparator sort, modelled by insertion sort). -/
def impactRun (st : ImpactInput) : List ImpactNode :=
  List.insertionSort (fun a b => b.impactScore ≤ a.impactScore)
    (st.files.foldl (impactStep st) [])

/-- `impactStep` as an option-valued selection, for membership reasoning. -/
def impactPick (st : ImpactInput) (p : String × Lang) : Option ImpactNode :=
  if isTestFile p.1 then none
  else if p.2 = Lang.json ∨ p.2 = Lang.css then none
  else if impactScoreOf st p.1 < 15 then none
  else some (impactNodeFor st p.1)

theorem impactStep_eq (st : ImpactInput) (acc : List ImpactNode) (p : String × Lang) :
    impactStep st acc p = acc ++ (impactPick st p).toList := by
  unfold impactStep impactPick
  by_cases h1 : isTestFile p.1
  · rw [if_pos h1, if_pos h1]; simp
  · rw [if_neg h1, if_neg h1]
    by_cases h2 : p.2 = Lang.json ∨ p.2 = Lang.css
    · rw [if_pos h2, if_pos h2]; simp
    · rw [if_neg h2, if_neg h2]
      by_cases h3 : impactScoreOf st p.1 < 15
      · rw [if_pos h3, if_pos h3]; simp
      · rw [if_neg h3, if_neg h3]; simp

theorem impactFold_eq (st : ImpactInput) :
    ∀ (files : List (String × Lang)) (acc : List ImpactNode),
      files.foldl (impactStep st) acc = acc ++ files.filterMap (impactPick st) := by
  intro files
  induction files with
  | nil => intro acc; simp
  | cons p ps ih =>
    intro acc
    rw [List.foldl_cons, impactStep_eq, ih]
    cases h : impactPick st p <;> simp [List.filterMap_cons, h]

theorem impactPick_eq_some {st : ImpactInput} {p : String × Lang} {m : ImpactNode} :
    impactPick st p = some m ↔
      isTestFile p.1 = false ∧ ¬(p.2 = Lang.json ∨ p.2 = Lang.css) ∧
        15 ≤ impactScoreOf st p.1 ∧ m = impactNodeFor st p.1 := by
  unfold impactPick
  by_cases h1 : isTestFile p.1
  · rw [if_pos h1]; simp [h1]
  · rw [if_neg h1]
    by_cases h2 : p.2 = Lang.json ∨ p.2 = Lang.css
    · rw [if_pos h2]; simp [h2]
    · rw [if_neg h2]
      by_cases h3 : impactScoreOf st p.1 < 15
      · rw [if_pos h3]
        simp only [Bool.not_eq_true] at h1
        simp [h1, h2]
        omega
      · rw [if_neg h3]
        simp only [Bool.not_eq_true] at h1
        simp only [Option.some.injEq, h1, h2, not_false_iff, true_and]
        constructor
        · rintro rfl; exact ⟨by omega, rfl⟩
        · rintro ⟨_, rfl⟩; rfl

theorem mem_impactRun {st : ImpactInput} {m : ImpactNode} :
    m ∈ impactRun st ↔
      ∃ p ∈ st.files, isTestFile p.1 = false ∧
        ¬(p.2 = Lang.json ∨ p.2 = Lang.css) ∧ 15 ≤ impactScoreOf st p.1 ∧
        m = impactNodeFor st p.1 := by
  unfold impactRun
  rw [List.mem_insertionSort, impactFold_eq, List.nil_append, List.mem_filterMap]
  constructor
  · rintro ⟨p, hp, hsome⟩
    exact ⟨p, hp, impactPick_eq_some.mp hsome⟩
  · rintro ⟨p, hp, hcond⟩
    exact ⟨p, hp, impactPick_eq_some.mpr hcond⟩

theorem impactScoreQ_nonneg (a b c : Nat) (t : Bool) (d : Nat) :
    0 ≤ impactScoreQ a b c t d := by
  unfold impactScoreQ
  have h1 : (0:ℚ) ≤ min ((a:ℚ)/30) 1 * 35 :=
    mul_nonneg (le_min (by positivity) (by norm_num)) (by norm_num)
  have h2 : (0:ℚ) ≤ min ((b:ℚ)/5) 1 * 25 :=
    mul_nonneg (le_min (by positivity) (by norm_num)) (by norm_num)
  have h3 : (0:ℚ) ≤ min ((c:ℚ)/100) 1 * 20 :=
    mul_nonneg (le_min (by positivity) (by norm_num)) (by norm_num)
  have h4 : (0:ℚ) ≤ (if t then (0:ℚ) else 10) := by split_ifs <;> norm_num
  have h5 : (0:ℚ) ≤ min ((d:ℚ)/50) 1 * 10 :=
    mul_nonneg (le_min (by positivity) (by norm_num)) (by norm_num)
  linarith

theorem impactScoreQ_le (a b c : Nat) (t : Bool) (d : Nat) :
    impactScoreQ a b c t d ≤ 100 := by
  unfold impactScoreQ
  have h1 : min ((a:ℚ)/30) 1 * 35 ≤ 35 := by
    have := min_le_right ((a:ℚ)/30) 1
    nlinarith
  have h2 : min ((b:ℚ)/5) 1 * 25 ≤ 25 := by
    have := min_le_right ((b:ℚ)/5) 1
    nlinarith
  have h3 : min ((c:ℚ)/100) 1 * 20 ≤ 20 := by
    have := min_le_right ((c:ℚ)/100) 1
    nlinarith
  have h4 : (if t then (0:ℚ) else 10) ≤ 10 := by split_ifs <;> norm_num
  have h5 : min ((d:ℚ)/50) 1 * 10 ≤ 10 := by
    have := min_le_right ((d:ℚ)/50) 1
    nlinarith
  linarith

theorem jsRound_nonneg {q : ℚ} (h : 0 ≤ q) : 0 ≤ jsRound q :=
  Int.le_floor.mpr (by push_cast; linarith)

theorem jsRound_le_100 {q : ℚ} (h : q ≤ 100) : jsRound q ≤ 100 := by
  unfold jsRound
  calc ⌊q + 1/2⌋ ≤ ⌊(100:ℚ) + 1/2⌋ := Int.floor_le_floor (by linarith)
    _ = 100 := by norm_num

theorem impactRun_sorted (st : ImpactInput) :
    List.Sorted (fun a b => b.impactScore ≤ a.impactScore) (impactRun st) := by
  unfold impactRun
  letI : IsTotal ImpactNode (fun a b => b.impactScore ≤ a.impactScore) :=
    ⟨fun a b => le_total _ _⟩
  letI : IsTrans ImpactNode (fun a b => b.impactScore ≤ a.impactScore) :=
    ⟨fun a b c h1 h2 => le_trans h2 h1⟩
  exact List.sorted_insertionSort _ _

/-- C3: for every non-test, non-asset file the emitted impact score is
`round(min(fanIn/30,1)*35 + min(featureCount/5,1)*25 + min(churn/100,1)*20
+ (hasTests ? 0 : 10) + min(complexity/50,1)*10)`, lies in `[0,100]`, a
record is emitted iff this score is `≥ 15`, severity follows the
70/50/30 cutoffs, and the output is ordered descending by score. -/
theorem impact_score_formula (st : ImpactInput) :
    (∀ n ∈ impactRun st,
      n.impactScore =
        jsRound (impactScoreQ n.fanIn n.featureCount n.gitChurn n.hasTests
          ((st.fileMetricsCx n.file).getD 0)) ∧
      n.fanIn = impactFanIn st.importGraph n.file ∧
      n.featureCount = featureCountOf st.features n.file ∧
      n.gitChurn = (st.gitChurns n.file).getD 0 ∧
      n.hasTests = hasTestsFor st.files n.file ∧
      0 ≤ n.impactScore ∧ n.impactScore ≤ 100 ∧ 15 ≤ n.impactScore ∧
      n.severity = severityFor n.impactScore) ∧
    List.Sorted (fun a b => b.impactScore ≤ a.impactScore) (impactRun st) ∧
    (∀ p ∈ st.files, isTestFile p.1 = false →
      ¬(p.2 = Lang.json ∨ p.2 = Lang.css) → 15 ≤ impactScoreOf st p.1 →
      ∃ n ∈ impactRun st, n.file = p.1) := by
  refine ⟨?_, impactRun_sorted st, ?_⟩
  · intro n hn
    obtain ⟨p, _, _, _, hs, rfl⟩ := mem_impactRun.mp hn
    refine ⟨rfl, rfl, rfl, rfl, rfl, ?_, ?_, hs, rfl⟩
    · exact jsRound_nonneg (impactScoreQ_nonneg _ _ _ _ _)
    · exact jsRound_le_100 (impactScoreQ_le _ _ _ _ _)
  · intro p hp h1 h2 h3
    exact ⟨impactNodeFor st p.1,
      mem_impactRun.mpr ⟨p, hp, h1, h2, h3, rfl⟩, rfl⟩

/-- A concrete store for the impact witnesses: one plain source file,
complexity 50, no tests, no churn data. -/
def impactWitnessInput : ImpactInput :=
  { files := [("a.ts", Lang.typescript)]
    importGraph := []
    features := []
    gitChurns := fun _ => none
    fileMetricsCx := fun s => if s = "a.ts" then some 50 else none }

theorem impactWitnessScore : impactScoreOf impactWitnessInput "a.ts" = 20 := by
  have h : impactScoreOf impactWitnessInput "a.ts" =
      jsRound (impactScoreQ 0 0 0 false 50) := rfl
  rw [h]
  norm_num [impactScoreQ, jsRound]

/-- Witness for C3: the file of `impactWitnessInput` scores 20 ≥ 15 and an
impact record for it is emitted. -/
theorem impact_score_formula_witness :
    ∃ n ∈ impactRun impactWitnessInput, n.file = "a.ts" :=
  (impact_score_formula impactWitnessInput).2.2 ("a.ts", Lang.typescript)
    (by decide) (by decide) (by decide)
    (by rw [impactWitnessScore]; norm_num)

/-- C9: with churn data entirely absent every emitted node carries
`gitChurn = 0`, every emitted score is the formula with a zero churn
term, and a non-test, non-asset file is emitted whenever the churn-free
score reaches 15 — no file is excluded for missing churn alone. The run
is a total function, so it cannot fail. -/
theorem impact_churn_absent (files : List (String × Lang))
    (edges : List ImportEdge) (features : List FeatureRec)
    (metricsCx : String → Option Nat) :
    (∀ n ∈ impactRun ⟨files, edges, features, fun _ => none, metricsCx⟩,
      n.gitChurn = 0 ∧
      n.impactScore = jsRound (impactScoreQ n.fanIn n.featureCount 0 n.hasTests
        ((metricsCx n.file).getD 0))) ∧
    (∀ p ∈ files, isTestFile p.1 = false →
      ¬(p.2 = Lang.json ∨ p.2 = Lang.css) →
      15 ≤ jsRound (impactScoreQ (impactFanIn edges p.1)
        (featureCountOf features p.1) 0 (hasTestsFor files p.1)
        ((metricsCx p.1).getD 0)) →
      ∃ n ∈ impactRun ⟨files, edges, features, fun _ => none, metricsCx⟩,
        n.file = p.1) := by
  constructor
  · intro n hn
    obtain ⟨p, _, _, _, _, rfl⟩ := mem_impactRun.mp hn
    exact ⟨rfl, rfl⟩
  · intro p hp h1 h2 h3
    exact ⟨impactNodeFor ⟨files, edges, features, fun _ => none, metricsCx⟩ p.1,
      mem_impactRun.mpr ⟨p, hp, h1, h2, h3, rfl⟩, rfl⟩

/-- Witness for C9: `impactWitnessInput` has no churn data; its file is
still scored and emitted. -/
theorem impact_churn_absent_witness :
    ∃ n ∈ impactRun ⟨[("a.ts", Lang.typescript)], [], [],
        fun _ => none, fun s => if s = "a.ts" then some 50 else none⟩,
      n.file = "a.ts" :=
  (impact_churn_absent [("a.ts", Lang.typescript)] [] []
      (fun s => if s = "a.ts" then some 50 else none)).2
    ("a.ts", Lang.typescript) (by decide) (by decide) (by decide)
    (by
      have h : jsRound (impactScoreQ
          (impactFanIn [] "a.ts") (featureCountOf [] "a.ts") 0
          (hasTestsFor [("a.ts", Lang.typescript)] "a.ts")
          (((fun s => if s = "a.ts" then some 50 else none) "a.ts").getD 0)) =
          jsRound (impactScoreQ 0 0 0 false 50) := rfl
      rw [h]
      norm_num [impactScoreQ, jsRound])

/-! ### Quality Analyzer fan-in/fan-out (unnamed/part_001)

The Metrics Aggregator pre-computes fan-in/fan-out by incrementing a
counter per edge — parallel edges each count. -/

/-- `fanInMap` of the Quality Analyzer: a per-edge counter. -/
def qaFanIn (edges : List ImportEdge) (rel : String) : Nat :=
  edges.foldl (fun n e => if e.target = rel then n + 1 else n) 0

/-- `fanOutMap` of the Quality Analyzer: a per-edge counter. -/
def qaFanOut (edges : List ImportEdge) (rel : String) : Nat :=
  edges.foldl (fun n e => if e.source = rel then n + 1 else n) 0

theorem qaFanIn_eq (edges : List ImportEdge) (rel : String) :
    qaFanIn edges rel = (edges.filter (fun e => e.target == rel)).length := by
  unfold qaFanIn
  suffices H : ∀ n, edges.foldl (fun n e => if e.target = rel then n + 1 else n) n =
      n + (edges.filter (fun e => e.target == rel)).length by simpa using H 0
  induction edges with
  | nil => intro n; simp
  | cons e es ih =>
    intro n
    rw [List.foldl_cons]
    by_cases h : e.target = rel
    · rw [if_pos h, ih]
      have hb : (e.target == rel) = true := beq_iff_eq.mpr h
      simp [List.filter_cons, hb, Nat.add_comm, Nat.add_assoc, Nat.add_left_comm]
    · rw [if_neg h, ih]
      have hb : (e.target == rel) = false := beq_eq_false_iff_ne.mpr h
      simp [List.filter_cons, hb]

theorem qaFanOut_eq (edges : List ImportEdge) (rel : String) :
    qaFanOut edges rel = (edges.filter (fun e => e.source == rel)).length := by
  unfold qaFanOut
  suffices H : ∀ n, edges.foldl (fun n e => if e.source = rel then n + 1 else n) n =
      n + (edges.filter (fun e => e.source == rel)).length by simpa using H 0
  induction edges with
  | nil => intro n; simp
  | cons e es ih =>
    intro n
    rw [List.foldl_cons]
    by_cases h : e.source = rel
    · rw [if_pos h, ih]
      have hb : (e.source == rel) = true := beq_iff_eq.mpr h
      simp [List.filter_cons, hb, Nat.add_comm, Nat.add_assoc, Nat.add_left_comm]
    · rw [if_neg h, ih]
      have hb : (e.source == rel) = false := beq_eq_false_iff_ne.mpr h
      simp [List.filter_cons, hb]

theorem fanInSources_aux (rel : String) (edges : List ImportEdge) :
    ∀ acc : List String, acc.Nodup →
      (edges.foldl
        (fun acc e =>
          if e.target = rel then (if e.source ∈ acc then acc else acc ++ [e.source])
          else acc) acc).Nodup ∧
      ∀ s, s ∈ edges.foldl
          (fun acc e =>
            if e.target = rel then (if e.source ∈ acc then acc else acc ++ [e.source])
            else acc) acc ↔
        s ∈ acc ∨ ∃ e ∈ edges, e.target = rel ∧ e.source = s := by
  induction edges with
  | nil => intro acc h; simpa using h
  | cons e es ih =>
    intro acc h
    rw [List.foldl_cons]
    by_cases h1 : e.target = rel
    · by_cases h2 : e.source ∈ acc
      · rw [if_pos h1, if_pos h2]
        obtain ⟨g1, g2⟩ := ih acc h
        refine ⟨g1, ?_⟩
        intro s
        rw [g2 s]
        constructor
        · rintro (hs | hs)
          · exact Or.inl hs
          · exact Or.inr (by obtain ⟨e', he', hp⟩ := hs; exact ⟨e', by simp [he'], hp⟩)
        · rintro (hs | ⟨e', he', hp⟩)
          · exact Or.inl hs
          · rcases List.mem_cons.mp he' with rfl | he''
            · exact Or.inl (hp.2 ▸ h2)
            · exact Or.inr ⟨e', he'', hp⟩
      · rw [if_pos h1, if_neg h2]
        have hnd : (acc ++ [e.source]).Nodup := by
          rw [List.nodup_append]
          exact ⟨h, List.nodup_singleton _, by simpa using h2⟩
        obtain ⟨g1, g2⟩ := ih _ hnd
        refine ⟨g1, ?_⟩
        intro s
        rw [g2 s]
        constructor
        · rintro (hs | hs)
          · rcases List.mem_append.mp hs with hs' | hs'
            · exact Or.inl hs'
            · simp only [List.mem_singleton] at hs'
              exact Or.inr ⟨e, by simp, h1, hs'.symm⟩
          · exact Or.inr (by obtain ⟨e', he', hp⟩ := hs; exact ⟨e', by simp [he'], hp⟩)
        · rintro (hs | ⟨e', he', hp⟩)
          · exact Or.inl (List.mem_append.mpr (Or.inl hs))
          · rcases List.mem_cons.mp he' with rfl | he''
            · exact Or.inl (List.mem_append.mpr (Or.inr (by simp [hp.2])))
            · exact Or.inr ⟨e', he'', hp⟩
    · rw [if_neg h1]
      obtain ⟨g1, g2⟩ := ih acc h
      refine ⟨g1, ?_⟩
      intro s
      rw [g2 s]
      constructor
      · rintro (hs | hs)
        · exact Or.inl hs
        · exact Or.inr (by obtain ⟨e', he', hp⟩ := hs; exact ⟨e', by simp [he'], hp⟩)
      · rintro (hs | ⟨e', he', hp⟩)
        · exact Or.inl hs
        · rcases List.mem_cons.mp he' with rfl | he''
          · exact absurd hp.1 h1
          · exact Or.inr ⟨e', he'', hp⟩

/-- C5 counterexample: two parallel edges `a.ts → b.ts`; the fan-in the
Blast-Radius Scorer feeds into the formula is 1 (distinct importers),
not the edge count 2 claimed. -/
theorem impact_fanIn_counterexample :
    impactFanIn [⟨"a.ts", "b.ts"⟩, ⟨"a.ts", "b.ts"⟩] "b.ts" = 1 ∧
    (List.filter (fun e => e.target == "b.ts")
      [(⟨"a.ts", "b.ts"⟩ : ImportEdge), ⟨"a.ts", "b.ts"⟩]).length = 2 ∧
    impactFanIn [⟨"a.ts", "b.ts"⟩, ⟨"a.ts", "b.ts"⟩] "b.ts" ≠
      (List.filter (fun e => e.target == "b.ts")
        [(⟨"a.ts", "b.ts"⟩ : ImportEdge), ⟨"a.ts", "b.ts"⟩]).length := by
  decide

/-- C5 amended: the Metrics Aggregator's fan-in/fan-out count edges, so k
parallel edges contribute k; the Blast-Radius Scorer's fan-in instead
counts distinct importer files: its source list is duplicate-free and
contains exactly the importers of the file. -/
theorem fanIn_edges_vs_distinct_importers (edges : List ImportEdge) (rel : String) :
    qaFanIn edges rel = (edges.filter (fun e => e.target == rel)).length ∧
    qaFanOut edges rel = (edges.filter (fun e => e.source == rel)).length ∧
    impactFanIn edges rel = (fanInSources edges rel).length ∧
    (fanInSources edges rel).Nodup ∧
    (∀ s, s ∈ fanInSources edges rel ↔ ∃ e ∈ edges, e.target = rel ∧ e.source = s) := by
  obtain ⟨g1, g2⟩ := fanInSources_aux rel edges [] (by simp)
  refine ⟨qaFanIn_eq edges rel, qaFanOut_eq edges rel, rfl, g1, fun s => ?_⟩
  unfold fanInSources
  rw [g2 s]
  simp

/-! ### Quality Analyzer feature test-coverage sub-score (unnamed/part_001)

`featureFiles` is the feature's member list restricted to files with
metrics; the sub-score depends on nothing else. -/

/-- `clamp(v, min, max)` from the Quality Analyzer. -/
def clamp (v lo hi : ℤ) : ℤ := max lo (min hi v)

/-- The `testFiles` filter exactly as written in the source: a member
passes when its own name carries a test marker or — note the inner
predicate ignores `f` — when any member of the feature carries one. -/
def qaTestFiles (featureFiles : List String) : List String :=
  featureFiles.filter (fun f =>
    strContains f ".spec." || strContains f ".test." ||
    featureFiles.any (fun t => strContains t ".spec." || strContains t ".test."))

/-- The test-coverage sub-score:
`clamp(Math.round(testRatio * 10), 0, 10)`. -/
def testCoverageScore (featureFiles : List String) : ℤ :=
  let testRatio : ℚ :=
    if featureFiles.length > 0 then
      ((qaTestFiles featureFiles).length : ℚ) / featureFiles.length
    else 0
  clamp (jsRound (testRatio * 10)) 0 10

/-- Modelled from the claim (C4): the per-file coverage ratio the spec
describes — a member counts when it is itself a test file or some member
test file maps to it under the analyzer's own test-to-source naming
convention (a "sibling test"). Used only to exhibit the divergence. -/
def claimedCoveredFiles (featureFiles : List String) : List String :=
  featureFiles.filter (fun f =>
    strContains f ".spec." || strContains f ".test." ||
    featureFiles.any (fun t =>
      (strContains t ".spec." || strContains t ".test.") && sourceFileOf t == f))

/-- Modelled from the claim (C4): the spec-described sub-score, scaled,
rounded and clamped like the source. -/
def claimedTestCoverageScore (featureFiles : List String) : ℤ :=
  let ratio : ℚ :=
    if featureFiles.length > 0 then
      ((claimedCoveredFiles featureFiles).length : ℚ) / featureFiles.length
    else 0
  clamp (jsRound (ratio * 10)) 0 10

/-- C4 counterexample: a feature of three members with exactly one test
file and no sibling tests. The source scores it 10 (ratio 1, because the
filter's last disjunct ignores the member), the claimed per-file ratio
1/3 would give 3. -/
theorem testCoverage_counterexample :
    testCoverageScore ["a.ts", "b.ts", "c.spec.ts"] = 10 ∧
    claimedTestCoverageScore ["a.ts", "b.ts", "c.spec.ts"] = 3 ∧
    testCoverageScore ["a.ts", "b.ts", "c.spec.ts"] ≠
      claimedTestCoverageScore ["a.ts", "b.ts", "c.spec.ts"] := by
  have h1 : (qaTestFiles ["a.ts", "b.ts", "c.spec.ts"]).length = 3 := by decide
  have h2 : (claimedCoveredFiles ["a.ts", "b.ts", "c.spec.ts"]).length = 1 := by decide
  have hA : testCoverageScore ["a.ts", "b.ts", "c.spec.ts"] = 10 := by
    simp only [testCoverageScore, h1]
    norm_num [jsRound, clamp]
  have hB : claimedTestCoverageScore ["a.ts", "b.ts", "c.spec.ts"] = 3 := by
    simp only [claimedTestCoverageScore, h2]
    norm_num [jsRound, clamp]
  exact ⟨hA, hB, by rw [hA, hB]; decide⟩

/-- C4 amended: the test-coverage sub-score is all-or-nothing — 10 as
soon as any member file carries a `.spec.`/`.test.` marker, 0 otherwise
(and 0 for an empty member list); it never reflects a fractional
per-file ratio. -/
theorem testCoverage_all_or_nothing (featureFiles : List String) :
    testCoverageScore featureFiles =
      if featureFiles = [] then 0
      else if featureFiles.any (fun t => strContains t ".spec." || strContains t ".test.")
      then 10 else 0 := by
  by_cases hnil : featureFiles = []
  · subst hnil
    norm_num [testCoverageScore, qaTestFiles, jsRound, clamp]
  · rw [if_neg hnil]
    have hlen : 0 < featureFiles.length := List.length_pos.mpr hnil
    have hlenQ : (featureFiles.length : ℚ) ≠ 0 := by
      exact_mod_cast Nat.pos_iff_ne_zero.mp hlen
    by_cases ht : featureFiles.any (fun t => strContains t ".spec." || strContains t ".test.")
    · rw [if_pos ht]
      have hfilter : qaTestFiles featureFiles = featureFiles := by
        unfold qaTestFiles
        apply List.filter_eq_self.mpr
        intro a _
        simp [ht]
      simp only [testCoverageScore, hfilter, if_pos hlen]
      rw [div_self hlenQ]
      norm_num [jsRound, clamp]
    · rw [if_neg ht]
      have hany : featureFiles.any (fun t => strContains t ".spec." || strContains t ".test.") = false :=
        Bool.not_eq_true _ ▸ Bool.of_not_eq_true ht
      have hmem : ∀ t ∈ featureFiles,
          (strContains t ".spec." || strContains t ".test.") = false := by
        intro t htm
        have := List.any_eq_false.mp hany t htm
        simpa using this
      have hfilter : qaTestFiles featureFiles = [] := by
        unfold qaTestFiles
        apply List.filter_eq_nil_iff.mpr
        intro a ha
        have h1 := hmem a ha
        rw [Bool.or_eq_false_iff] at h1
        simp [h1.1, h1.2, hany]
      simp only [testCoverageScore, hfilter, if_pos hlen]
      norm_num [jsRound, clamp]

/-! ### Import Graph Resolver (agents/repo-indexer.ts, `resolveImportPath`)

Path arithmetic (`node:path` `dirname`/`join` on the posix-style relative
paths the indexer produces) is modelled at the segment level. -/

/-- JS `s.replace(/\/$/, '')`: drop one trailing slash. -/
def stripTrailSlash (s : String) : String :=
  if strEnds s "/" then ⟨s.data.dropLast⟩ else s

/-- `node:path` `dirname` for slash-separated paths. -/
def dirName (p : String) : String :=
  let parts := splitStr '/' p
  if parts.length ≤ 1 then "."
  else
    let q := String.intercalate "/" parts.dropLast
    if q = "" then "/" else q

/-- `node:path` `join(dir, rel)` with `.`/`..`/empty-segment
normalization. -/
def joinNorm (dir rel : String) : String :=
  let isAbs := strStarts dir "/"
  let segs := splitStr '/' (dir ++ "/" ++ rel)
  let stack := segs.foldl
    (fun acc seg =>
      if seg = "" || seg = "." then acc
      else if seg = ".." then
        if isAbs then acc.dropLast
        else
          match acc.getLast? with
          | some last => if last = ".." then acc ++ [seg] else acc.dropLast
          | none => acc ++ [seg]
      else acc ++ [seg]) []
  let body := String.intercalate "/" stack
  if isAbs then "/" ++ body else if body = "" then "." else body

/-- `.replace(/\\/g, '/')`. -/
def backslashToSlash (s : String) : String :=
  ⟨s.data.map (fun c => if c = '\x5c' then '/' else c)⟩

/-- JS `s.replace(/\.[^.]+$/, '')`: strip the final dot-suffix when it is
non-empty (the suffix may contain slashes, exactly like the regex). -/
def stripOwnExt (s : String) : String :=
  let parts := splitStr '.' s
  if parts.length ≤ 1 then s
  else
    match parts.getLast? with
    | some last => if last = "" then s else String.intercalate "." parts.dropLast
    | none => s

/-- The probe-suffix table exactly as listed in the source. -/
def RESOLVE_EXTENSIONS : List String :=
  [".ts", ".tsx", ".js", ".jsx", ".vue", ".svelte", ".mjs",
   "/index.ts", "/index.tsx", "/index.js", "/index.jsx", "/index.vue"]

/-- Specifier is relative: starts with `.` or `/`. -/
def isRelativeSpec (importPath : String) : Bool :=
  strStarts importPath "." || strStarts importPath "/"

/-- Specifier begins with some alias prefix (trailing slash stripped). -/
def isAliasedSpec (importPath : String) (aliases : List (String × String)) : Bool :=
  aliases.any (fun a => strStarts importPath (stripTrailSlash a.1))

/-- Alias substitution (first matching alias in table order, occurrence
necessarily at position 0) followed by relative resolution against the
importer's directory. -/
def resolveBase (importPath fromFile : String)
    (aliases : List (String × String)) : String :=
  let afterAlias :=
    match aliases.find? (fun a =>
      let clean := stripTrailSlash a.1
      strStarts importPath (clean ++ "/") || importPath == clean) with
    | some a =>
      let clean := stripTrailSlash a.1
      ⟨(stripTrailSlash a.2).data ++ importPath.data.drop clean.data.length⟩
    | none => importPath
  if strStarts afterAlias "." then
    backslashToSlash (joinNorm (dirName fromFile) afterAlias)
  else afterAlias

/-- The sequential probing tail of `resolveImportPath`: direct probe,
extension-probe loop, final stripped-extension probe. -/
def probeSequential (p : String) (files : List String) : Option String :=
  if files.contains p then some p
  else
    match RESOLVE_EXTENSIONS.find? (fun ext => files.contains (p ++ ext)) with
    | some ext => some (p ++ ext)
    | none =>
      let withoutExt := stripOwnExt p
      if files.contains withoutExt then some withoutExt else none

/-- `resolveImportPath` translated branch by branch: external check,
alias/relative resolution, then the sequential probes. -/
def resolveImportPath (importPath fromFile : String)
    (files : List String) (aliases : List (String × String)) : Option String :=
  if ¬ isRelativeSpec importPath ∧ ¬ isAliasedSpec importPath aliases then none
  else probeSequential (resolveBase importPath fromFile aliases) files

/-- The plain-extension probes in table order. -/
def SOURCE_EXT_PROBES : List String :=
  [".ts", ".tsx", ".js", ".jsx", ".vue", ".svelte", ".mjs"]

/-- The `/index` probes in table order. -/
def INDEX_EXT_PROBES : List String := [".ts", ".tsx", ".js", ".jsx", ".vue"]

/-- The claim's candidate order: exact path, path + each extension,
path + `/index` + each extension, path with its own extension stripped. -/
def resolveCandidates (p : String) : List String :=
  [p] ++ SOURCE_EXT_PROBES.map (fun ext => p ++ ext) ++
    INDEX_EXT_PROBES.map (fun ext => p ++ "/index" ++ ext) ++ [stripOwnExt p]

/-- The resolver as the claim describes it: external specifiers produce
no edge; otherwise the first candidate present in the indexed set wins
and an unmatched specifier is dropped. -/
def resolveImportPathProbe (importPath fromFile : String)
    (files : List String) (aliases : List (String × String)) : Option String :=
  if ¬ isRelativeSpec importPath ∧ ¬ isAliasedSpec importPath aliases then none
  else (resolveCandidates (resolveBase importPath fromFile aliases)).find?
    (fun c => files.contains c)

theorem resolveExtensions_split (p : String) :
    RESOLVE_EXTENSIONS.map (fun ext => p ++ ext) =
      SOURCE_EXT_PROBES.map (fun ext => p ++ ext) ++
        INDEX_EXT_PROBES.map (fun ext => p ++ "/index" ++ ext) := by
  have h1 : ("/index" : String) ++ ".ts" = "/index.ts" := by decide
  have h2 : ("/index" : String) ++ ".tsx" = "/index.tsx" := by decide
  have h3 : ("/index" : String) ++ ".js" = "/index.js" := by decide
  have h4 : ("/index" : String) ++ ".jsx" = "/index.jsx" := by decide
  have h5 : ("/index" : String) ++ ".vue" = "/index.vue" := by decide
  simp [RESOLVE_EXTENSIONS, SOURCE_EXT_PROBES, INDEX_EXT_PROBES,
    String.append_assoc, h1, h2, h3, h4, h5]

theorem probeSequential_eq_find (p : String) (files : List String) :
    probeSequential p files =
      (resolveCandidates p).find? (fun c => files.contains c) := by
  have hsplit : resolveCandidates p =
      p :: (RESOLVE_EXTENSIONS.map (fun ext => p ++ ext) ++ [stripOwnExt p]) := by
    unfold resolveCandidates
    rw [resolveExtensions_split]
    simp [List.append_assoc]
  rw [hsplit]
  simp only [probeSequential]
  by_cases h1 : files.contains p
  · rw [if_pos h1, List.find?_cons_of_pos _ h1]
  · rw [if_neg h1, List.find?_cons_of_neg _ (by simpa using h1),
      List.find?_append, List.find?_map]
    cases hf : RESOLVE_EXTENSIONS.find? (fun ext => files.contains (p ++ ext)) with
    | some ext =>
      have hf' : RESOLVE_EXTENSIONS.find?
          ((fun c => files.contains c) ∘ (fun ext => p ++ ext)) = some ext := hf
      rw [hf']
      rfl
    | none =>
      have hf' : RESOLVE_EXTENSIONS.find?
          ((fun c => files.contains c) ∘ (fun ext => p ++ ext)) = none := hf
      rw [hf']
      simp only [Option.map_none', Option.none_or]
      by_cases h2 : files.contains (stripOwnExt p)
      · rw [if_pos h2, List.find?_cons_of_pos _ h2]
      · rw [if_neg h2, List.find?_cons_of_neg _ (by simpa using h2)]
        rfl

/-- C7: the sequential resolver equals the probe-list description —
external specifiers yield no edge, otherwise candidates are tried in the
order exact / + extension / + `/index` + extension / extension-stripped
and the first one in the indexed set wins; the result is always zero or
one edge (an `Option`, never an exception). -/
theorem resolveImportPath_eq_probe (importPath fromFile : String)
    (files : List String) (aliases : List (String × String)) :
    resolveImportPath importPath fromFile files aliases =
      resolveImportPathProbe importPath fromFile files aliases ∧
    (isRelativeSpec importPath = false → isAliasedSpec importPath aliases = false →
      resolveImportPath importPath fromFile files aliases = none) := by
  constructor
  · unfold resolveImportPath resolveImportPathProbe
    by_cases hext : ¬ isRelativeSpec importPath ∧ ¬ isAliasedSpec importPath aliases
    · rw [if_pos hext, if_pos hext]
    · rw [if_neg hext, if_neg hext]
      exact probeSequential_eq_find _ files
  · intro h1 h2
    unfold resolveImportPath
    rw [if_pos (by simp [h1, h2])]

/-- Witness for C7: a bare package specifier with no alias table yields
no edge. -/
theorem resolveImportPath_eq_probe_witness :
    resolveImportPath "lodash" "src/a.ts" ["src/a.ts"] [] = none :=
  (resolveImportPath_eq_probe "lodash" "src/a.ts" ["src/a.ts"] []).2
    (by decide) (by decide)

/-! ### Feature Grouper (unnamed/part_003)

The four signal passes and the fallback pass, over the file inventory,
the resolved import graph and the churn map.  The feature map is a
function keyed by feature id (JS `Map` key lookup); the display name and
description fields and the final confidence computation are omitted —
they never influence membership, entry points or assignments. -/

/-- A detected workspace package (only `dir` is read by the grouper). -/
structure ProjectPackage where
  dir : String
deriving DecidableEq, Repr

/-- The auto-detected config fields the grouper reads. -/
structure ProjectConfig where
  conventionPaths : List String
  packages : List ProjectPackage
deriving DecidableEq, Repr

/-- `SHARED_DIRS`: shared/utility directories, never features. -/
def SHARED_DIRS : List String :=
  ["common", "shared", "utils", "helpers", "types", "assets", "styles",
   "static", "public", "test-utils", "support", "plugin", "plugins",
   "middleware", "layouts", "composables", "hooks", "lib", "config",
   "constants", "interfaces", "models", "services", "api", "i18n",
   "locales", "theme", "__tests__", "tests", "test", "mocks",
   "__mocks__", "fixtures", "cypress", "e2e", "node_modules",
   "dist", "build", "ag-grid"]

/-- `FEATURE_CONTAINERS`: directories that contain feature
subdirectories. -/
def FEATURE_CONTAINERS : List String :=
  ["src", "components", "features", "modules", "views", "store",
   "pages", "screens", "app", "sections", "domains", "patterns"]

/-- JS `toLowerCase` (ASCII, which covers every table entry). -/
def toLowerStr (s : String) : String := ⟨s.data.map Char.toLower⟩

/-- The shared candidate check: not denylisted (case-insensitively) and
not dot-prefixed. -/
def dfpCandidate (cand : String) : Option String :=
  if ¬ SHARED_DIRS.contains (toLowerStr cand) ∧ ¬ strStarts cand "." then some cand
  else none

/-- `detectFeatureFromPath`: package patterns first (first package whose
pattern matches wins), then the root-level feature-container pattern. -/
def detectFeatureFromPath (filePath : String) (config : Option ProjectConfig) :
    Option String :=
  let parts := splitStr '/' filePath
  let packages := match config with | some c => c.packages | none => []
  let fromPkgs := packages.findSome? (fun pkg =>
    if strStarts filePath (pkg.dir ++ "/") then
      let pkgParts := splitStr '/' pkg.dir
      let innerParts := parts.drop pkgParts.length
      (if 2 ≤ innerParts.length ∧ FEATURE_CONTAINERS.contains (innerParts.getD 0 "")
       then dfpCandidate (innerParts.getD 1 "") else none) <|>
      (if 3 ≤ innerParts.length ∧ FEATURE_CONTAINERS.contains (innerParts.getD 0 "") ∧
          (FEATURE_CONTAINERS.contains (innerParts.getD 1 "") ∨ innerParts.getD 1 "" = "patterns")
       then dfpCandidate (innerParts.getD 2 "") else none)
    else none)
  fromPkgs <|>
    (if 2 ≤ parts.length ∧ FEATURE_CONTAINERS.contains (parts.getD 0 "")
     then dfpCandidate (parts.getD 1 "") else none)

/-- `detectFeatureFromRoute`: strip the pages prefix, take the first
segment minus its extension, excluding `_`/`.`-prefixed and `index`. -/
def detectFeatureFromRoute (filePath pagesDir : String) : Option String :=
  let routePart := replaceFirst filePath pagesDir ""
  let parts := splitStr '/' routePart
  let p0 := parts.getD 0 ""
  if p0 ≠ "" ∧ ¬ strStarts p0 "_" ∧ ¬ strStarts p0 "." then
    let featureId := stripOwnExt p0
    if featureId ≠ "" ∧ featureId ≠ "index" then some featureId else none
  else none

/-- The membership-relevant fields of a `Feature` record (name and
description are derived display strings). -/
structure FeatureData where
  files : List String
  entryPoints : List String
  signals : List (String × ℚ)
  isCrossCutting : Bool
deriving DecidableEq, Repr

/-- `createFeature` (membership-relevant fields). -/
def createFeature : FeatureData :=
  { files := [], entryPoints := [], signals := [], isCrossCutting := false }

/-- Grouper state: `featureMap` and `fileToFeature`. -/
structure GState where
  feats : String → Option FeatureData
  fileToFeature : String → Option String

/-- `featureMap.set(fid, d)`. -/
def setFeat (s : GState) (fid : String) (d : FeatureData) : GState :=
  { s with feats := fun i => if i = fid then some d else s.feats i }

/-- `fileToFeature.set(rel, fid)`. -/
def assign (s : GState) (rel fid : String) : GState :=
  { s with fileToFeature := fun f => if f = rel then some fid else s.fileToFeature f }

/-- Lookup with the freshly created record as default (the source
creates the record right before reading it). -/
def getFeatD (s : GState) (fid : String) : FeatureData :=
  (s.feats fid).getD createFeature

def initGState : GState := ⟨fun _ => none, fun _ => none⟩

/-- Signal 1 (folder structure, weight 0.35) for one file. -/
def signal1Step (config : Option ProjectConfig) (s : GState) (rel : String) : GState :=
  match detectFeatureFromPath rel config with
  | none => s
  | some fid =>
    let feat := getFeatD s fid
    let feat' := { feat with
      files := feat.files ++ [rel],
      signals := feat.signals ++ [("folder", 7/20)] }
    assign (setFeat s fid feat') rel fid

def signal1 (config : Option ProjectConfig) (files : List String) (s : GState) : GState :=
  files.foldl (signal1Step config) s

/-- `pagesDirs`: convention paths ending in `pages/`, `app/` or
`routes/`. -/
def pagesDirsOf (config : Option ProjectConfig) : List String :=
  (match config with | some c => c.conventionPaths | none => []).filter
    (fun p => strEnds p "pages/" || strEnds p "app/" || strEnds p "routes/")

/-- The body of signal 2 (routes, weight 0.30) once a route feature id
is detected: an
existing route feature only gains an entry point and a signal; a new
route feature is created, the file joins it and is reassigned to it. -/
def signal2Route (s : GState) (rel rf : String) : GState :=
  match s.feats rf with
  | some feat =>
    setFeat s rf { feat with
      entryPoints :=
        if rel ∈ feat.entryPoints then feat.entryPoints else feat.entryPoints ++ [rel],
      signals := feat.signals ++ [("route", 3/10)] }
  | none =>
    assign (setFeat s rf { createFeature with
      files := [rel],
      entryPoints := [rel],
      signals := [("route", 3/10)] }) rel rf

def signal2StepDir (s : GState) (rel : String) (pagesDir : String) : GState :=
  if ¬ strStarts rel pagesDir then s
  else
    match detectFeatureFromRoute rel pagesDir with
    | none => s
    | some rf => signal2Route s rel rf

def signal2Step (pagesDirs : List String) (s : GState) (rel : String) : GState :=
  pagesDirs.foldl (fun s pd => signal2StepDir s rel pd) s

def signal2 (pagesDirs : List String) (files : List String) (s : GState) : GState :=
  files.foldl (signal2Step pagesDirs) s

/-- The body of signal 3 (import clusters, weight 0.20): an unassigned
target imported by an assigned source joins and is assigned to the
source's feature. -/
def signal3Join (s : GState) (sf tgt : String) : GState :=
  if tgt ∈ (getFeatD s sf).files then s
  else
    assign (setFeat s sf { getFeatD s sf with
      files := (getFeatD s sf).files ++ [tgt],
      signals := (getFeatD s sf).signals ++ [("import-cluster", 1/5)] }) tgt sf

def signal3Step (s : GState) (e : ImportEdge) : GState :=
  match s.fileToFeature e.source, s.fileToFeature e.target with
  | some sf, none => signal3Join s sf e.target
  | _, _ => s

def signal3 (edges : List ImportEdge) (s : GState) : GState :=
  edges.foldl signal3Step s

/-- A git churn record as the grouper reads it. -/
structure ChurnRec where
  commitCount : Nat
  coChangedWith : List String
deriving DecidableEq, Repr

/-- The body of signal 4 (git co-change, weight 0.15) for an
unassigned, indexed co-changed file. -/
def signal4Join (s : GState) (myFeat coFile : String) : GState :=
  if coFile ∈ (getFeatD s myFeat).files then s
  else
    assign (setFeat s myFeat { getFeatD s myFeat with
      files := (getFeatD s myFeat).files ++ [coFile],
      signals := (getFeatD s myFeat).signals ++ [("git-cochange", 3/20)] }) coFile myFeat

def signal4Inner (filesIdx : List String) (myFeat : String) (s : GState)
    (coFile : String) : GState :=
  if s.fileToFeature coFile = none ∧ filesIdx.contains coFile then
    signal4Join s myFeat coFile
  else s

def signal4Step (filesIdx : List String) (s : GState) (entry : String × ChurnRec) : GState :=
  match s.fileToFeature entry.1 with
  | none => s
  | some myFeat => (entry.2.coChangedWith.take 10).foldl (signal4Inner filesIdx myFeat) s

def signal4 (skipGit : Bool) (churns : List (String × ChurnRec))
    (filesIdx : List String) (s : GState) : GState :=
  if ¬ skipGit ∧ churns ≠ [] then churns.foldl (signal4Step filesIdx) s else s

/-- The fallback pass body: the file joins the single reserved
`cross-cutting` feature (created on demand). -/
def fallbackJoin (s : GState) (rel : String) : GState :=
  match s.feats "cross-cutting" with
  | some f =>
    assign (setFeat s "cross-cutting" { f with files := f.files ++ [rel] })
      rel "cross-cutting"
  | none =>
    assign (setFeat s "cross-cutting" { createFeature with
      isCrossCutting := true, files := [rel] }) rel "cross-cutting"

def fallbackStep (s : GState) (rel : String) : GState :=
  match s.fileToFeature rel with
  | some _ => s
  | none => fallbackJoin s rel

def fallback (files : List String) (s : GState) : GState :=
  files.foldl fallbackStep s

def afterSignal1 (config : Option ProjectConfig) (files : List String) : GState :=
  signal1 config files initGState

def afterSignal2 (config : Option ProjectConfig) (files : List String) : GState :=
  signal2 (pagesDirsOf config) files (afterSignal1 config files)

def afterSignal3 (config : Option ProjectConfig) (files : List String)
    (edges : List ImportEdge) : GState :=
  signal3 edges (afterSignal2 config files)

/-- The whole grouper run: signals 1–4 then the fallback pass (the final
confidence computation does not touch membership or assignments). -/
def featureGrouperRun (config : Option ProjectConfig) (files : List String)
    (edges : List ImportEdge) (skipGit : Bool)
    (churns : List (String × ChurnRec)) : GState :=
  fallback files (signal4 skipGit churns files (afterSignal3 config files edges))

/-! #### Invariants of the grouper -/

/-- Every assigned file is a member of its assigned feature's file list. -/
def MemInv (s : GState) : Prop :=
  ∀ f fid, s.fileToFeature f = some fid → f ∈ (getFeatD s fid).files

theorem getFeatD_setFeat_same (s : GState) (fid : String) (d : FeatureData) :
    getFeatD (setFeat s fid d) fid = d := by
  unfold getFeatD setFeat
  simp

theorem getFeatD_setFeat_other (s : GState) (fid fid' : String) (d : FeatureData)
    (h : fid' ≠ fid) : getFeatD (setFeat s fid d) fid' = getFeatD s fid' := by
  unfold getFeatD setFeat
  simp [h]

theorem getFeatD_of_some {s : GState} {fid : String} {d : FeatureData}
    (h : s.feats fid = some d) : getFeatD s fid = d := by
  unfold getFeatD
  rw [h]
  rfl

theorem getFeatD_of_none {s : GState} {fid : String}
    (h : s.feats fid = none) : getFeatD s fid = createFeature := by
  unfold getFeatD
  rw [h]
  rfl

theorem MemInv_setFeat {s : GState} {fid : String} {d : FeatureData} (h : MemInv s)
    (hd : ∀ x ∈ (getFeatD s fid).files, x ∈ d.files) : MemInv (setFeat s fid d) := by
  intro f fid' hf
  have hf' : s.fileToFeature f = some fid' := hf
  by_cases he : fid' = fid
  · subst he
    rw [getFeatD_setFeat_same]
    exact hd f (h f fid' hf')
  · rw [getFeatD_setFeat_other _ _ _ _ he]
    exact h f fid' hf'

theorem MemInv_assign {s : GState} {rel fid : String} (h : MemInv s)
    (hrel : rel ∈ (getFeatD s fid).files) : MemInv (assign s rel fid) := by
  intro f fid' hf
  have hfeq : getFeatD (assign s rel fid) fid' = getFeatD s fid' := rfl
  rw [hfeq]
  by_cases he : f = rel
  · subst he
    have h2 : (assign s f fid).fileToFeature f = some fid := by
      show (if f = f then some fid else s.fileToFeature f) = some fid
      simp
    have h3 : fid = fid' := Option.some.inj (h2.symm.trans hf)
    subst h3
    exact hrel
  · have h2 : (assign s rel fid).fileToFeature f = s.fileToFeature f := by
      show (if f = rel then some fid else s.fileToFeature f) = s.fileToFeature f
      rw [if_neg he]
    rw [h2] at hf
    exact h f fid' hf

theorem MemInv_init : MemInv initGState := by
  intro f fid hf
  simp [initGState] at hf

theorem foldl_MemInv {α : Type} (step : GState → α → GState)
    (hstep : ∀ s a, MemInv s → MemInv (step s a)) :
    ∀ (l : List α) (s : GState), MemInv s → MemInv (l.foldl step s) := by
  intro l
  induction l with
  | nil => intro s h; exact h
  | cons a as ih =>
    intro s h
    rw [List.foldl_cons]
    exact ih _ (hstep s a h)

theorem signal1Step_MemInv (config : Option ProjectConfig) :
    ∀ (s : GState) (rel : String), MemInv s → MemInv (signal1Step config s rel) := by
  intro s rel h
  unfold signal1Step
  cases hd : detectFeatureFromPath rel config with
  | none => exact h
  | some fid =>
    refine MemInv_assign (MemInv_setFeat h ?_) ?_
    · intro x hx
      exact List.mem_append.mpr (Or.inl hx)
    · rw [getFeatD_setFeat_same]
      exact List.mem_append.mpr (Or.inr (by simp))

theorem signal2Route_MemInv (s : GState) (rel rf : String) (h : MemInv s) :
    MemInv (signal2Route s rel rf) := by
  unfold signal2Route
  cases hfeat : s.feats rf with
  | some feat =>
    refine MemInv_setFeat h ?_
    intro x hx
    rw [getFeatD_of_some hfeat] at hx
    exact hx
  | none =>
    refine MemInv_assign (MemInv_setFeat h ?_) ?_
    · intro x hx
      rw [getFeatD_of_none hfeat] at hx
      simp [createFeature] at hx
    · rw [getFeatD_setFeat_same]
      simp

theorem signal2StepDir_MemInv :
    ∀ (s : GState) (rel pd : String), MemInv s → MemInv (signal2StepDir s rel pd) := by
  intro s rel pd h
  unfold signal2StepDir
  by_cases hs : ¬ strStarts rel pd
  · rw [if_pos hs]; exact h
  · rw [if_neg hs]
    cases hr : detectFeatureFromRoute rel pd with
    | none => exact h
    | some rf => exact signal2Route_MemInv s rel rf h

theorem signal3Join_MemInv (s : GState) (sf tgt : String) (h : MemInv s) :
    MemInv (signal3Join s sf tgt) := by
  unfold signal3Join
  by_cases hmem : tgt ∈ (getFeatD s sf).files
  · rw [if_pos hmem]; exact h
  · rw [if_neg hmem]
    refine MemInv_assign (MemInv_setFeat h ?_) ?_
    · intro x hx
      exact List.mem_append.mpr (Or.inl hx)
    · rw [getFeatD_setFeat_same]
      exact List.mem_append.mpr (Or.inr (by simp))

theorem signal3Step_MemInv :
    ∀ (s : GState) (e : ImportEdge), MemInv s → MemInv (signal3Step s e) := by
  intro s e h
  unfold signal3Step
  cases hsrc : s.fileToFeature e.source with
  | none => exact h
  | some sf =>
    cases htgt : s.fileToFeature e.target with
    | some x => exact h
    | none => exact signal3Join_MemInv s sf e.target h

theorem signal4Join_MemInv (s : GState) (myFeat coFile : String) (h : MemInv s) :
    MemInv (signal4Join s myFeat coFile) := by
  unfold signal4Join
  by_cases hmem : coFile ∈ (getFeatD s myFeat).files
  · rw [if_pos hmem]; exact h
  · rw [if_neg hmem]
    refine MemInv_assign (MemInv_setFeat h ?_) ?_
    · intro x hx
      exact List.mem_append.mpr (Or.inl hx)
    · rw [getFeatD_setFeat_same]
      exact List.mem_append.mpr (Or.inr (by simp))

theorem signal4Step_MemInv (filesIdx : List String) :
    ∀ (s : GState) (entry : String × ChurnRec), MemInv s →
      MemInv (signal4Step filesIdx s entry) := by
  intro s entry h
  unfold signal4Step
  cases hmf : s.fileToFeature entry.1 with
  | none => exact h
  | some myFeat =>
    refine foldl_MemInv _ ?_ _ s h
    intro s' coFile h'
    unfold signal4Inner
    by_cases hc : s'.fileToFeature coFile = none ∧ filesIdx.contains coFile
    · rw [if_pos hc]
      exact signal4Join_MemInv s' myFeat coFile h'
    · rw [if_neg hc]; exact h'

theorem fallbackJoin_MemInv (s : GState) (rel : String) (h : MemInv s) :
    MemInv (fallbackJoin s rel) := by
  unfold fallbackJoin
  cases hfeat : s.feats "cross-cutting" with
  | some f =>
    refine MemInv_assign (MemInv_setFeat h ?_) ?_
    · intro x hx
      rw [getFeatD_of_some hfeat] at hx
      exact List.mem_append.mpr (Or.inl hx)
    · rw [getFeatD_setFeat_same]
      exact List.mem_append.mpr (Or.inr (by simp))
  | none =>
    refine MemInv_assign (MemInv_setFeat h ?_) ?_
    · intro x hx
      rw [getFeatD_of_none hfeat] at hx
      simp [createFeature] at hx
    · rw [getFeatD_setFeat_same]
      simp

theorem fallbackStep_MemInv :
    ∀ (s : GState) (rel : String), MemInv s → MemInv (fallbackStep s rel) := by
  intro s rel h
  unfold fallbackStep
  cases hmf : s.fileToFeature rel with
  | some fid => exact h
  | none => exact fallbackJoin_MemInv s rel h

theorem featureGrouperRun_MemInv (config : Option ProjectConfig) (files : List String)
    (edges : List ImportEdge) (skipGit : Bool) (churns : List (String × ChurnRec)) :
    MemInv (featureGrouperRun config files edges skipGit churns) := by
  have h1 : MemInv (afterSignal1 config files) :=
    foldl_MemInv _ (signal1Step_MemInv config) files initGState MemInv_init
  have h2 : MemInv (afterSignal2 config files) := by
    refine foldl_MemInv _ ?_ files _ h1
    intro s rel h
    exact foldl_MemInv _ (fun s' pd h' => signal2StepDir_MemInv s' rel pd h') _ s h
  have h3 : MemInv (afterSignal3 config files edges) :=
    foldl_MemInv _ signal3Step_MemInv edges _ h2
  have h4 : MemInv (signal4 skipGit churns files (afterSignal3 config files edges)) := by
    unfold signal4
    by_cases hc : ¬ skipGit ∧ churns ≠ []
    · rw [if_pos hc]
      exact foldl_MemInv _ (signal4Step_MemInv files) churns _ h3
    · rw [if_neg hc]; exact h3
  exact foldl_MemInv _ fallbackStep_MemInv files _ h4

/-! #### Totality of the fallback pass -/

theorem assign_isSome_mono (s : GState) (rel fid f : String)
    (h : (s.fileToFeature f).isSome) : ((assign s rel fid).fileToFeature f).isSome := by
  show (if f = rel then some fid else s.fileToFeature f).isSome
  by_cases he : f = rel
  · rw [if_pos he]; rfl
  · rw [if_neg he]; exact h

theorem fallbackJoin_isSome_mono (s : GState) (rel f : String)
    (h : (s.fileToFeature f).isSome) : ((fallbackJoin s rel).fileToFeature f).isSome := by
  unfold fallbackJoin
  cases hfeat : s.feats "cross-cutting" with
  | some x => exact assign_isSome_mono _ _ _ _ h
  | none => exact assign_isSome_mono _ _ _ _ h

theorem fallbackStep_isSome_mono (s : GState) (rel f : String)
    (h : (s.fileToFeature f).isSome) : ((fallbackStep s rel).fileToFeature f).isSome := by
  unfold fallbackStep
  cases hmf : s.fileToFeature rel with
  | some fid => exact h
  | none => exact fallbackJoin_isSome_mono s rel f h

theorem fallbackJoin_assigns (s : GState) (rel : String) :
    ((fallbackJoin s rel).fileToFeature rel).isSome := by
  unfold fallbackJoin
  cases hfeat : s.feats "cross-cutting" with
  | some x =>
    show (if rel = rel then some "cross-cutting" else s.fileToFeature rel).isSome
    simp
  | none =>
    show (if rel = rel then some "cross-cutting" else s.fileToFeature rel).isSome
    simp

theorem fallbackStep_assigns (s : GState) (rel : String) :
    ((fallbackStep s rel).fileToFeature rel).isSome := by
  unfold fallbackStep
  cases hmf : s.fileToFeature rel with
  | some fid => rw [hmf]; rfl
  | none => exact fallbackJoin_assigns s rel

theorem foldl_fallback_isSome (l : List String) :
    ∀ (s : GState) (f : String), (s.fileToFeature f).isSome →
      ((l.foldl fallbackStep s).fileToFeature f).isSome := by
  induction l with
  | nil => intro s f h; exact h
  | cons a as ih =>
    intro s f h
    rw [List.foldl_cons]
    exact ih _ f (fallbackStep_isSome_mono s a f h)

theorem fallback_total (files : List String) :
    ∀ (s : GState) (rel : String), rel ∈ files →
      ((fallback files s).fileToFeature rel).isSome := by
  induction files with
  | nil => intro s rel h; simp at h
  | cons r rs ih =>
    intro s rel hrel
    show ((rs.foldl fallbackStep (fallbackStep s r)).fileToFeature rel).isSome
    rcases List.mem_cons.mp hrel with rfl | hrel'
    · exact foldl_fallback_isSome rs _ rel (fallbackStep_assigns s rel)
    · exact ih _ rel hrel'

/-- C1 amended: after the four signal passes plus the fallback pass,
every indexed file carries exactly one cluster id (the file-to-feature
index is a total function into existing clusters) and is a member of
that cluster's file list; member lists themselves may overlap, see the
counterexample. -/
theorem grouper_exactly_one_cluster (config : Option ProjectConfig)
    (files : List String) (edges : List ImportEdge) (skipGit : Bool)
    (churns : List (String × ChurnRec)) :
    ∀ rel ∈ files, ∃ fid,
      (featureGrouperRun config files edges skipGit churns).fileToFeature rel = some fid ∧
      rel ∈ (getFeatD (featureGrouperRun config files edges skipGit churns) fid).files := by
  intro rel hrel
  have htot : ((featureGrouperRun config files edges skipGit churns).fileToFeature rel).isSome :=
    fallback_total files _ rel hrel
  obtain ⟨fid, hfid⟩ := Option.isSome_iff_exists.mp htot
  exact ⟨fid, hfid,
    featureGrouperRun_MemInv config files edges skipGit churns rel fid hfid⟩

/-- Witness for C1 (amended): the concrete run of the counterexample
still assigns its file exactly one cluster id and membership there. -/
theorem grouper_exactly_one_cluster_witness :
    ∃ fid,
      (featureGrouperRun (some ⟨["src/pages/"], []⟩) ["src/pages/login.vue"]
        [] true []).fileToFeature "src/pages/login.vue" = some fid ∧
      "src/pages/login.vue" ∈ (getFeatD (featureGrouperRun (some ⟨["src/pages/"], []⟩)
        ["src/pages/login.vue"] [] true []) fid).files :=
  grouper_exactly_one_cluster (some ⟨["src/pages/"], []⟩) ["src/pages/login.vue"]
    [] true [] "src/pages/login.vue" (by decide)

/-- C1 counterexample: with convention path `src/pages/`, the single file
`src/pages/login.vue` ends up in the member lists of two different
clusters — signal 1 puts it in `pages`, then signal 2 creates `login`
and pushes it there as well without removing it from `pages`. -/
theorem grouper_partition_counterexample :
    "src/pages/login.vue" ∈ (getFeatD (featureGrouperRun (some ⟨["src/pages/"], []⟩)
      ["src/pages/login.vue"] [] true []) "pages").files ∧
    "src/pages/login.vue" ∈ (getFeatD (featureGrouperRun (some ⟨["src/pages/"], []⟩)
      ["src/pages/login.vue"] [] true []) "login").files ∧
    ("pages" : String) ≠ "login" :=
  ⟨by decide, by decide, by decide⟩

/-! #### Claim C8: does signal 2 ever reassign? -/

/-- C8 counterexample: signal 1 assigns `src/pages/login.vue` to the
`pages` cluster; signal 2 detects route feature `login`, which does not
exist in the feature map yet, and reassigns the file. -/
theorem signal2_reassigns_counterexample :
    (afterSignal1 (some ⟨["src/pages/"], []⟩) ["src/pages/login.vue"]).fileToFeature
      "src/pages/login.vue" = some "pages" ∧
    (afterSignal2 (some ⟨["src/pages/"], []⟩) ["src/pages/login.vue"]).fileToFeature
      "src/pages/login.vue" = some "login" ∧
    ("pages" : String) ≠ "login" :=
  ⟨by decide, by decide, by decide⟩

/-- Signal 2 leaves assignments and member lists intact and never drops
a feature-map entry. -/
def SameMembership (s s' : GState) : Prop :=
  s'.fileToFeature = s.fileToFeature ∧
  (∀ fid, (getFeatD s' fid).files = (getFeatD s fid).files) ∧
  (∀ fid, (s.feats fid).isSome → (s'.feats fid).isSome)

theorem SameMembership_refl (s : GState) : SameMembership s s :=
  ⟨rfl, fun _ => rfl, fun _ h => h⟩

theorem signal2Route_SameMembership {s s' : GState} {rel rf : String}
    (hq : SameMembership s s') (hknown : (s.feats rf).isSome) :
    SameMembership s (signal2Route s' rel rf) := by
  obtain ⟨q1, q2, q3⟩ := hq
  have hrf : (s'.feats rf).isSome := q3 rf hknown
  obtain ⟨feat, hfeat⟩ := Option.isSome_iff_exists.mp hrf
  unfold signal2Route
  rw [hfeat]
  refine ⟨q1, ?_, ?_⟩
  · intro fid
    by_cases he : fid = rf
    · subst he
      rw [getFeatD_setFeat_same]
      have : (getFeatD s' fid).files = feat.files := by rw [getFeatD_of_some hfeat]
      rw [← q2 fid, this]
    · rw [getFeatD_setFeat_other _ _ _ _ he]
      exact q2 fid
  · intro fid hs
    show (if fid = rf then some _ else s'.feats fid).isSome
    by_cases he : fid = rf
    · rw [if_pos he]; rfl
    · rw [if_neg he]; exact q3 fid hs

theorem signal2StepDir_SameMembership {s s' : GState} {rel pd : String}
    (hq : SameMembership s s')
    (hcond : strStarts rel pd = true →
      ∀ rf, detectFeatureFromRoute rel pd = some rf → (s.feats rf).isSome) :
    SameMembership s (signal2StepDir s' rel pd) := by
  unfold signal2StepDir
  by_cases hs : ¬ strStarts rel pd
  · rw [if_pos hs]; exact hq
  · rw [if_neg hs]
    cases hr : detectFeatureFromRoute rel pd with
    | none => exact hq
    | some rf =>
      have hstart : strStarts rel pd = true := by
        revert hs
        cases strStarts rel pd <;> simp
      exact signal2Route_SameMembership hq (hcond hstart rf hr)

theorem signal2Step_SameMembership (pagesDirs : List String) :
    ∀ (s' : GState) (s : GState) (rel : String), SameMembership s s' →
      (∀ pd ∈ pagesDirs, strStarts rel pd = true →
        ∀ rf, detectFeatureFromRoute rel pd = some rf → (s.feats rf).isSome) →
      SameMembership s (signal2Step pagesDirs s' rel) := by
  unfold signal2Step
  induction pagesDirs with
  | nil => intro s' s rel hq _; exact hq
  | cons pd pds ih =>
    intro s' s rel hq hcond
    rw [List.foldl_cons]
    exact ih _ s rel
      (signal2StepDir_SameMembership hq (hcond pd (by simp)))
      (fun pd' hpd' => hcond pd' (by simp [hpd']))

/-- C8 amended: signal 2 never changes any cluster assignment or member
list as long as every route feature it detects already exists in the
feature map; when the detected route feature is new, it may reassign the
file and add it to the new feature's member list (see the
counterexample). -/
theorem signal2_no_reassign_when_known (pagesDirs files : List String) (s : GState)
    (h : ∀ f ∈ files, ∀ pd ∈ pagesDirs, strStarts f pd = true →
      ∀ rf, detectFeatureFromRoute f pd = some rf → (s.feats rf).isSome) :
    (signal2 pagesDirs files s).fileToFeature = s.fileToFeature ∧
    ∀ fid, (getFeatD (signal2 pagesDirs files s) fid).files = (getFeatD s fid).files := by
  suffices H : ∀ (fs : List String) (s' : GState), SameMembership s s' →
      (∀ f ∈ fs, ∀ pd ∈ pagesDirs, strStarts f pd = true →
        ∀ rf, detectFeatureFromRoute f pd = some rf → (s.feats rf).isSome) →
      SameMembership s (fs.foldl (signal2Step pagesDirs) s') by
    obtain ⟨q1, q2, _⟩ := H files s (SameMembership_refl s) h
    exact ⟨q1, q2⟩
  intro fs
  induction fs with
  | nil => intro s' hq _; exact hq
  | cons f fs' ih =>
    intro s' hq hcond
    rw [List.foldl_cons]
    exact ih _
      (signal2Step_SameMembership pagesDirs s' s f hq (hcond f (by simp)))
      (fun f' hf' => hcond f' (by simp [hf']))

/-- A state with feature `login` already present and its file assigned
elsewhere, for the C8 witness. -/
def s2KnownState : GState :=
  ⟨fun i => if i = "login" then some createFeature else none,
   fun f => if f = "pages/login.vue" then some "misc" else none⟩

/-- Witness for C8 (amended): when the detected route feature `login`
already exists, signal 2 leaves the file's assignment untouched. -/
theorem signal2_no_reassign_when_known_witness :
    (signal2 ["pages/"] ["pages/login.vue"] s2KnownState).fileToFeature
      "pages/login.vue" = some "misc" := by
  have h := (signal2_no_reassign_when_known ["pages/"] ["pages/login.vue"] s2KnownState
    (by
      intro f hf pd hpd hstart rf hrf
      simp only [List.mem_singleton] at hf hpd
      subst hf
      subst hpd
      have hd : detectFeatureFromRoute "pages/login.vue" "pages/" = some "login" := by
        decide
      rw [hd] at hrf
      injection hrf with hrf'
      subst hrf'
      decide)).1
  rw [congrFun h "pages/login.vue"]
  decide

/-! #### Claim C2: strictly one hop per run? -/

/-- C2 counterexample: `c.ts` is imported only by `b.ts`, and `b.ts` is
unassigned when signal 3 starts; yet with the edges in path order the
single pass assigns first `b.ts` and then `c.ts` — propagation cascades
two hops. -/
theorem signal3_two_hop_counterexample :
    (afterSignal2 none ["src/alpha/a.ts", "b.ts", "c.ts"]).fileToFeature "b.ts" = none ∧
    (∀ e ∈ [ImportEdge.mk "src/alpha/a.ts" "b.ts", ImportEdge.mk "b.ts" "c.ts"],
      e.target = "c.ts" → e.source = "b.ts") ∧
    (afterSignal3 none ["src/alpha/a.ts", "b.ts", "c.ts"]
      [⟨"src/alpha/a.ts", "b.ts"⟩, ⟨"b.ts", "c.ts"⟩]).fileToFeature "c.ts" = some "alpha" :=
  ⟨by decide, by decide, by decide⟩

/-- Reachability from the initially assigned files along import edges
(in the import direction: importer to imported file). -/
inductive EdgeReach (s0 : String → Option String) (edges : List ImportEdge) : String → Prop
  | base (f : String) : (s0 f).isSome → EdgeReach s0 edges f
  | step (e : ImportEdge) : e ∈ edges → EdgeReach s0 edges e.source →
      EdgeReach s0 edges e.target

theorem signal3Join_assignSome {s : GState} {sf tgt g : String}
    (hg : ((signal3Join s sf tgt).fileToFeature g).isSome) :
    (s.fileToFeature g).isSome ∨ g = tgt := by
  unfold signal3Join at hg
  by_cases hmem : tgt ∈ (getFeatD s sf).files
  · rw [if_pos hmem] at hg; exact Or.inl hg
  · rw [if_neg hmem] at hg
    by_cases hge : g = tgt
    · exact Or.inr hge
    · left
      have hg' : (if g = tgt then some sf else s.fileToFeature g).isSome = true := hg
      rw [if_neg hge] at hg'
      exact hg'

theorem signal3Step_assignSome {s : GState} {e : ImportEdge} {g : String}
    (hg : ((signal3Step s e).fileToFeature g).isSome) :
    (s.fileToFeature g).isSome ∨
      (g = e.target ∧ (s.fileToFeature e.source).isSome) := by
  unfold signal3Step at hg
  cases hsrc : s.fileToFeature e.source with
  | none => rw [hsrc] at hg; exact Or.inl hg
  | some sf =>
    cases htgt : s.fileToFeature e.target with
    | some x => rw [hsrc, htgt] at hg; exact Or.inl hg
    | none =>
      rw [hsrc, htgt] at hg
      rcases signal3Join_assignSome hg with h | h
      · exact Or.inl h
      · exact Or.inr ⟨h, rfl⟩

theorem signal3_fold_reach (s0 : String → Option String) (edges : List ImportEdge) :
    ∀ (l : List ImportEdge) (s : GState),
      (∀ e ∈ l, e ∈ edges) →
      (∀ g, (s.fileToFeature g).isSome → EdgeReach s0 edges g) →
      ∀ g, ((l.foldl signal3Step s).fileToFeature g).isSome → EdgeReach s0 edges g := by
  intro l
  induction l with
  | nil => intro s _ hs g hg; exact hs g hg
  | cons e es ih =>
    intro s hsub hs g hg
    rw [List.foldl_cons] at hg
    refine ih _ (fun e' he' => hsub e' (by simp [he'])) ?_ g hg
    intro g' hg'
    rcases signal3Step_assignSome hg' with h | ⟨hgt, hsrc⟩
    · exact hs g' h
    · subst hgt
      exact EdgeReach.step e (hsub e (by simp)) (hs e.source hsrc)

/-- C2 amended: within one pass of signal 3, assignment can propagate
along any directed chain of edges whose links appear in processing
order, so only files unreachable from the initially assigned files stay
unassigned for every edge order; a file two hops away can be assigned in
a single pass (see the counterexample). -/
theorem signal3_unreachable_stays_unassigned (s : GState) (edges : List ImportEdge)
    (f : String) (h : ¬ EdgeReach s.fileToFeature edges f) :
    (signal3 edges s).fileToFeature f = none := by
  cases hf : (signal3 edges s).fileToFeature f with
  | none => rfl
  | some fid =>
    exact absurd
      (signal3_fold_reach s.fileToFeature edges edges s (fun e he => he)
        (fun g hg => EdgeReach.base g hg) f (by rw [show signal3 edges s = edges.foldl signal3Step s from rfl] at hf; rw [hf]; rfl))
      h

theorem noReach_of_allNone (edges : List ImportEdge) (g : String) :
    ¬ EdgeReach (fun _ => none) edges g := by
  intro h
  induction h with
  | base f hf => simp at hf
  | step e he hr ih => exact ih

/-- Witness for C2 (amended): starting from a fully unassigned state, no
file is assigned by signal 3, whatever the edges. -/
theorem signal3_unreachable_stays_unassigned_witness :
    (signal3 [ImportEdge.mk "a.ts" "b.ts"] initGState).fileToFeature "b.ts" = none :=
  signal3_unreachable_stays_unassigned initGState [⟨"a.ts", "b.ts"⟩] "b.ts"
    (noReach_of_allNone [⟨"a.ts", "b.ts"⟩] "b.ts")

end Inspector
